import Mathlib

/-!
# Verification of the RecTools model configuration subsystem

The repository's demonstrated surface (`from_config`, `get_config`,
`get_params`, `save`/`load`) is documented in
`examples/9_model_configs_and_params.ipynb`; the implementation itself is not
part of the source tree given here, so the configuration / resolution /
persistence subsystem is modelled from the specification, with the notebook's
recorded outputs pinning the concrete behaviours.
-/

namespace RecTools

/-- Modelled from the spec: a duration value ("a duration stays a duration
value with day/second/microsecond-style fields"), mirroring Python's
normalized `timedelta` components. -/
structure Duration where
  days : Int
  seconds : Int
  microseconds : Int
deriving DecidableEq

/-- `timedelta(weeks=w)` normalizes to `7*w` days. -/
def Duration.ofWeeks (w : Int) : Duration := ⟨7 * w, 0, 0⟩

/-- Modelled from the spec: the values a ConfigTree can hold — primitives
(number, string, boolean, null), a duration, an enumeration member, or a
nested tree.  Floats are carried as exact rationals (only exact literal
values occur in configurations; no floating-point arithmetic is modelled). -/
inductive Value where
  | int (n : Int)
  | float (q : Rat)
  | str (s : String)
  | bool (b : Bool)
  | null
  | enum (s : String)
  | dur (d : Duration)
  | tree (fields : List (String × Value))

/-- Modelled from the spec: a ConfigTree is an ordered mapping from string
keys to values. -/
abbrev ConfigTree := List (String × Value)

mutual

/-- Boolean structural equality on values. -/
def Value.beq : Value → Value → Bool
  | .int a, .int b => a == b
  | .float a, .float b => a == b
  | .str a, .str b => a == b
  | .bool a, .bool b => a == b
  | .null, .null => true
  | .enum a, .enum b => a == b
  | .dur a, .dur b => decide (a = b)
  | .tree a, .tree b => treeBeq a b
  | _, _ => false
termination_by structural v => v

/-- Boolean structural equality on config trees. -/
def treeBeq : ConfigTree → ConfigTree → Bool
  | [], [] => true
  | (k, v) :: xs, (l, w) :: ys => k == l && Value.beq v w && treeBeq xs ys
  | _, _ => false
termination_by structural t => t

end

mutual

theorem Value.beq_iff : ∀ (a b : Value), Value.beq a b = true ↔ a = b := by
  intro a b
  cases a <;> cases b <;> simp [Value.beq]
  case tree.tree x y => exact treeBeq_iff x y

theorem treeBeq_iff : ∀ (a b : ConfigTree), treeBeq a b = true ↔ a = b := by
  intro a b
  cases a with
  | nil => cases b <;> simp [treeBeq]
  | cons p xs =>
    cases b with
    | nil => simp [treeBeq]
    | cons q ys =>
      cases p with
      | mk k v =>
        cases q with
        | mk l w =>
          simp [treeBeq, Value.beq_iff v w, treeBeq_iff xs ys, and_assoc]

end

instance : DecidableEq Value := fun a b =>
  decidable_of_iff (Value.beq a b = true) (Value.beq_iff a b)

/-! ## Type Normalizer (§4.2) -/

/-- The nonzero integer components of a duration, in days/seconds/microseconds
order. -/
def durTreeRaw (d : Duration) : ConfigTree :=
  (if d.days ≠ 0 then [("days", Value.int d.days)] else [])
    ++ (if d.seconds ≠ 0 then [("seconds", Value.int d.seconds)] else [])
    ++ (if d.microseconds ≠ 0 then [("microseconds", Value.int d.microseconds)] else [])

/-- Modelled from the spec: a duration's `simple` conversion — "a small
mapping of integer component fields (e.g., `{"days": N}`)".  Zero components
are omitted (the notebook shows `timedelta(weeks=2)` as exactly
`{'days': 14}`); an all-zero duration is rendered as `{"days": 0}`. -/
def durTree (d : Duration) : ConfigTree :=
  if (durTreeRaw d).isEmpty then [("days", Value.int 0)] else durTreeRaw d

mutual

/-- Modelled from the spec: the Type Normalizer's `simple` mode. Enumeration
members convert to their underlying string value; durations convert to a
mapping of integer components; unset/optional values convert to null;
already-simple values are unchanged; trees are normalized value-wise. -/
def Value.normalizeSimple : Value → Value
  | .int n => .int n
  | .float q => .float q
  | .str s => .str s
  | .bool b => .bool b
  | .null => .null
  | .enum s => .str s
  | .dur d => .tree (durTree d)
  | .tree t => .tree (normTree t)
termination_by structural v => v

/-- `simple` normalization of every value of a tree. -/
def normTree : ConfigTree → ConfigTree
  | [] => []
  | (k, v) :: rest => (k, v.normalizeSimple) :: normTree rest
termination_by structural t => t

end

mutual

/-- A value is *simple* when it is directly JSON-encodable: a primitive or a
tree of simple values. -/
def Value.isSimple : Value → Bool
  | .int _ => true
  | .float _ => true
  | .str _ => true
  | .bool _ => true
  | .null => true
  | .enum _ => false
  | .dur _ => false
  | .tree t => treeIsSimple t
termination_by structural v => v

/-- All values of a tree are simple. -/
def treeIsSimple : ConfigTree → Bool
  | [] => true
  | (_, v) :: rest => v.isSimple && treeIsSimple rest
termination_by structural t => t

end

mutual

theorem Value.normalizeSimple_of_isSimple (v : Value) (h : v.isSimple = true) :
    v.normalizeSimple = v := by
  cases v with
  | tree t =>
    have : treeIsSimple t = true := h
    simp [Value.normalizeSimple, normTree_of_isSimple t this]
  | enum s => simp [Value.isSimple] at h
  | dur d => simp [Value.isSimple] at h
  | _ => simp [Value.normalizeSimple]

theorem normTree_of_isSimple (t : ConfigTree) (h : treeIsSimple t = true) :
    normTree t = t := by
  cases t with
  | nil => rfl
  | cons p rest =>
    cases p with
    | mk k v =>
      have h' : v.isSimple = true ∧ treeIsSimple rest = true := by
        simpa [treeIsSimple, Bool.and_eq_true] using h
      simp [normTree, Value.normalizeSimple_of_isSimple v h'.1,
        normTree_of_isSimple rest h'.2]

end

theorem treeIsSimple_append (a b : ConfigTree) :
    treeIsSimple (a ++ b) = (treeIsSimple a && treeIsSimple b) := by
  induction a with
  | nil => simp [treeIsSimple]
  | cons p rest ih => cases p; simp [treeIsSimple, ih, Bool.and_assoc]

theorem treeIsSimple_durTree (d : Duration) : treeIsSimple (durTree d) = true := by
  unfold durTree
  split
  · simp [treeIsSimple, Value.isSimple]
  · unfold durTreeRaw
    split_ifs <;> simp [treeIsSimple, treeIsSimple_append, Value.isSimple]

mutual

theorem Value.normalizeSimple_idem (v : Value) :
    v.normalizeSimple.normalizeSimple = v.normalizeSimple := by
  cases v with
  | tree t => simp [Value.normalizeSimple, normTree_idem t]
  | dur d =>
    show (Value.tree (durTree d)).normalizeSimple = Value.tree (durTree d)
    simp [Value.normalizeSimple, normTree_of_isSimple _ (treeIsSimple_durTree d)]
  | _ => simp [Value.normalizeSimple]

theorem normTree_idem (t : ConfigTree) :
    normTree (normTree t) = normTree t := by
  cases t with
  | nil => rfl
  | cons p rest =>
    cases p with
    | mk k v => simp [normTree, Value.normalizeSimple_idem v, normTree_idem rest]

end

/-! ## Model Config Schema (§4.4) -/

/-- Modelled from the spec: the declared type of a schema field. -/
inductive FieldType where
  | tInt
  | tFloat
  | tStr
  | tBool
  | tEnum (allowed : List String)
  | tDuration
  | tOpt (base : FieldType)
deriving DecidableEq

/-- An integer-valued leaf. -/
def Value.isInt : Value → Bool
  | .int _ => true
  | _ => false

/-- A tree acceptable as a duration: a nonempty mapping of integer
components (the keyword arguments of a `timedelta`). -/
def isDurComponents (t : ConfigTree) : Bool :=
  !t.isEmpty && t.all (fun p =>
    (p.1 == "days" || p.1 == "seconds" || p.1 == "microseconds") && p.2.isInt)

/-- Modelled from the spec: validation/coercion of a supplied value against a
field's declared type.  Numbers are coerced to the declared numeric type
(an integer supplied for a float field becomes that float); enumeration
fields accept the member's underlying string and store the member; duration
fields accept a duration (stored as its integer-component mapping, which is
how `get_config` reports periods) or an already-converted component mapping;
optional fields accept null. -/
def coerceValue : FieldType → Value → Option Value
  | .tInt, .int n => some (.int n)
  | .tFloat, .float q => some (.float q)
  | .tFloat, .int n => some (.float n)
  | .tStr, .str s => some (.str s)
  | .tBool, .bool b => some (.bool b)
  | .tEnum allowed, .str s => if s ∈ allowed then some (.enum s) else none
  | .tEnum allowed, .enum s => if s ∈ allowed then some (.enum s) else none
  | .tDuration, .dur d => some (.tree (durTree d))
  | .tDuration, .tree t => if isDurComponents t then some (.tree t) else none
  | .tOpt _, .null => some .null
  | .tOpt base, v => coerceValue base v
  | _, _ => none

/-- Modelled from the spec: a schema-declared field — its name, declared
type, and default value (§3: per-kind set of recognized field names, each
field's declared type, and its default). -/
structure Field where
  name : String
  type : FieldType
  dflt : Value
deriving DecidableEq

/-- Modelled from the spec: errors of the configuration surface (§7). -/
inductive ConfigError where
  | schemaValidation (field : String)
  | resolution (selector : String)
  | construction (param : String)
deriving DecidableEq

/-- The declared names of a field list. -/
def fieldNames (fs : List Field) : List String := fs.map Field.name

/-- Modelled from the spec: `from_config` validates that every key in the
input tree is a recognized field; the first unrecognized key fails with
`SchemaValidationError`. -/
def checkKeys (t : ConfigTree) (allowed : List String) : Except ConfigError Unit :=
  match t.find? (fun p => !(allowed.contains p.1)) with
  | some p => .error (.schemaValidation p.1)
  | none => .ok ()

/-- Modelled from the spec: build the complete field-value list in
declaration order — a supplied value is coerced against the declared type,
a missing field is filled from the kind's declared default. -/
def buildVals (fs : List Field) (t : ConfigTree) : Except ConfigError ConfigTree :=
  match fs with
  | [] => .ok []
  | f :: rest =>
    match List.lookup f.name t with
    | some raw =>
      match coerceValue f.type raw with
      | some v =>
        match buildVals rest t with
        | .ok tail => .ok ((f.name, v) :: tail)
        | .error e => .error e
      | none => .error (.schemaValidation f.name)
    | none =>
      match buildVals rest t with
      | .ok tail => .ok ((f.name, f.dflt) :: tail)
      | .error e => .error e

/-- Modelled from the spec: `from_config` for a plain (non-wrapper) kind —
validate keys, then fill every declared field. -/
def fromConfigPlain (fs : List Field) (t : ConfigTree) : Except ConfigError ConfigTree :=
  match checkKeys t (fieldNames fs) with
  | .error e => .error e
  | .ok _ => buildVals fs t

/-! ## Class Resolver and Wrapper Composition Protocol (§4.1, §4.5) -/

/-- Modelled from the spec: the constructible implementation types the
dynamic-import path can reach, each with its constructor's parameter names
and default values in signature order (defaults as recorded in the
notebook outputs). -/
def knownTypes : List (String × ConfigTree) :=
  [("implicit.nearest_neighbours.TFIDFRecommender",
     [("K", .int 20), ("num_threads", .int 0)]),
   ("implicit.nearest_neighbours.CosineRecommender",
     [("K", .int 20), ("num_threads", .int 0)]),
   ("implicit.nearest_neighbours.BM25Recommender",
     [("K", .int 20), ("K1", .float (6/5 : Rat)), ("B", .float (3/4 : Rat)),
      ("num_threads", .int 0)]),
   ("implicit.nearest_neighbours.ItemItemRecommender",
     [("K", .int 20), ("num_threads", .int 0)]),
   ("implicit.als.AlternatingLeastSquares",
     [("factors", .int 100), ("regularization", .float (1/100 : Rat)),
      ("alpha", .float 1), ("dtype", .str "float32"), ("use_native", .bool true),
      ("use_cg", .bool true), ("use_gpu", .bool false), ("iterations", .int 15),
      ("calculate_training_loss", .bool false), ("num_threads", .int 0),
      ("random_state", .null)]),
   ("lightfm.lightfm.LightFM",
     [("no_components", .int 10), ("k", .int 5), ("n", .int 10),
      ("learning_schedule", .str "adagrad"), ("loss", .str "logistic"),
      ("learning_rate", .float (1/20 : Rat)), ("rho", .float (19/20 : Rat)),
      ("epsilon", .float (1/1000000 : Rat)), ("item_alpha", .float 0),
      ("user_alpha", .float 0), ("max_sampled", .int 10), ("random_state", .null)])]

/-- Modelled from the spec: a wrapper kind — its wrapper-level fields
declared before and after the reserved `model` field, the kind's built-in
alias registry (alias → fully-qualified path), and the kind-specific
default implementation selector. -/
structure WrapperSpec where
  preFields : List Field
  postFields : List Field
  registry : List (String × String)
  defaultCls : String
deriving DecidableEq

/-- Modelled from the spec: the Class Resolver — a registered alias resolves
through the built-in registry with no dynamic import; otherwise the selector
is treated as a fully-qualified import path, failing with `ResolutionError`
when it reaches no constructible type. -/
def resolveSelector (reg : List (String × String)) (sel : String) : Except ConfigError String :=
  match List.lookup sel reg with
  | some path => .ok path
  | none =>
    match List.lookup sel knownTypes with
    | some _ => .ok sel
    | none => .error (.resolution sel)

/-- Modelled from the spec: a resolved type identity is rendered as a short
name when it matches a built-in registry alias, otherwise as its
fully-qualified path. -/
def renderCls (reg : List (String × String)) (path : String) : String :=
  match reg.find? (fun p => p.2 == path) with
  | some p => p.1
  | none => path

/-- The top-level keys a wrapper kind recognizes. -/
def wrapperAllowed (w : WrapperSpec) : List String :=
  fieldNames w.preFields ++ "model" :: fieldNames w.postFields

/-- Extract the reserved `model` sub-tree (empty when absent). -/
def getModelTree (t : ConfigTree) : Except ConfigError ConfigTree :=
  match List.lookup "model" t with
  | some (.tree mt) => .ok mt
  | some _ => .error (.schemaValidation "model")
  | none => .ok []

/-- The `model` sub-tree declares exactly the reserved keys `cls` and
`params`. -/
def checkModelKeys (mt : ConfigTree) : Except ConfigError Unit :=
  match mt.find? (fun p => !(p.1 == "cls" || p.1 == "params")) with
  | some p => .error (.schemaValidation p.1)
  | none => .ok ()

/-- Extract the class selector, defaulting to the kind's default selector. -/
def getCls (mt : ConfigTree) (dflt : String) : Except ConfigError String :=
  match List.lookup "cls" mt with
  | some (.str s) => .ok s
  | none => .ok dflt
  | some _ => .error (.schemaValidation "model.cls")

/-- Extract the inner `params` sub-tree (empty when absent). -/
def getParamsTree (mt : ConfigTree) : Except ConfigError ConfigTree :=
  match List.lookup "params" mt with
  | some (.tree pt) => .ok pt
  | none => .ok []
  | some _ => .error (.schemaValidation "model.params")

/-- Modelled from the spec: the live inner instance's actual constructor
arguments — the signature's defaults overridden by the supplied params,
in signature order (this is why wrapper kinds surface inner defaults that
were never explicitly supplied). -/
def mergeArgs (sg : ConfigTree) (prms : ConfigTree) : ConfigTree :=
  sg.map (fun sp => (sp.1, (List.lookup sp.1 prms).getD sp.2))

/-- Modelled from the spec: a live model instance — its resolved kind data
and current hyperparameter values; wrapper kinds additionally hold the
resolved inner implementation type and its constructor arguments. -/
inductive Instance where
  | plain (fs : List Field) (vals : ConfigTree)
  | wrapped (w : WrapperSpec) (preVals : ConfigTree) (innerPath : String)
      (innerArgs : ConfigTree) (postVals : ConfigTree)

/-- Build the wrapper's own fields and assemble the instance (final stage of
a wrapper kind's `from_config`). -/
def wrapperBuild (w : WrapperSpec) (t : ConfigTree) (path : String)
    (sg prms : ConfigTree) : Except ConfigError Instance :=
  match buildVals w.preFields t with
  | .error e => .error e
  | .ok pre =>
    match buildVals w.postFields t with
    | .error e => .error e
    | .ok post => .ok (.wrapped w pre path (mergeArgs sg prms) post)

/-- Construct the inner implementation: a supplied param the resolved
constructor does not recognize is a construction error. -/
def wrapperConstruct (w : WrapperSpec) (t : ConfigTree) (path : String)
    (sg prms : ConfigTree) : Except ConfigError Instance :=
  match prms.find? (fun p => !((sg.map Prod.fst).contains p.1)) with
  | some bad => .error (.construction bad.1)
  | none => wrapperBuild w t path sg prms

/-- Extract the inner `params` and construct. -/
def wrapperParams (w : WrapperSpec) (t mt : ConfigTree) (path : String)
    (sg : ConfigTree) : Except ConfigError Instance :=
  match getParamsTree mt with
  | .error e => .error e
  | .ok prms => wrapperConstruct w t path sg prms

/-- Look up the resolved type's constructor signature. -/
def wrapperSig (w : WrapperSpec) (t mt : ConfigTree) (path : String) :
    Except ConfigError Instance :=
  match List.lookup path knownTypes with
  | none => .error (.resolution path)
  | some sg => wrapperParams w t mt path sg

/-- Resolve the class selector through the Class Resolver. -/
def wrapperResolve (w : WrapperSpec) (t mt : ConfigTree) (sel : String) :
    Except ConfigError Instance :=
  match resolveSelector w.registry sel with
  | .error e => .error e
  | .ok path => wrapperSig w t mt path

/-- Extract the class selector (defaulting per kind) and resolve. -/
def wrapperCls (w : WrapperSpec) (t mt : ConfigTree) : Except ConfigError Instance :=
  match getCls mt w.defaultCls with
  | .error e => .error e
  | .ok sel => wrapperResolve w t mt sel

/-- Validate the reserved `model` sub-keys. -/
def wrapperModelKeys (w : WrapperSpec) (t mt : ConfigTree) :
    Except ConfigError Instance :=
  match checkModelKeys mt with
  | .error e => .error e
  | .ok _ => wrapperCls w t mt

/-- Extract the reserved `model` sub-tree. -/
def wrapperModelStage (w : WrapperSpec) (t : ConfigTree) :
    Except ConfigError Instance :=
  match getModelTree t with
  | .error e => .error e
  | .ok mt => wrapperModelKeys w t mt

/-- Modelled from the spec: `from_config` for a wrapper kind — validate the
top-level and `model` keys, resolve `model.cls` (defaulting per kind),
construct the inner implementation with `model.params` (an unrecognized
constructor parameter is a construction error), then build the wrapper's own
fields. -/
def fromConfigWrapper (w : WrapperSpec) (t : ConfigTree) : Except ConfigError Instance :=
  match checkKeys t (wrapperAllowed w) with
  | .error e => .error e
  | .ok _ => wrapperModelStage w t

/-- Modelled from the spec: a model kind is either a plain schema or a
wrapper schema. -/
inductive Kind where
  | plain (fs : List Field)
  | wrapper (w : WrapperSpec)
deriving DecidableEq

/-- Modelled from the spec: per-kind `from_config`. -/
def Kind.fromConfig : Kind → ConfigTree → Except ConfigError Instance
  | .plain fs, t =>
    match fromConfigPlain fs t with
    | .ok vals => .ok (.plain fs vals)
    | .error e => .error e
  | .wrapper w, t => fromConfigWrapper w t

/-- The declared top-level field names of a kind. -/
def Kind.declaredNames : Kind → List String
  | .plain fs => fieldNames fs
  | .wrapper w => wrapperAllowed w

/-- Modelled from the spec: `get_config` with `simple_types=False` — the
complete field set in declaration order; a wrapper kind reports the inner
type identity under `model.cls` (rendered short when it matches a registry
alias) and the live inner constructor arguments under `model.params`. -/
def Instance.getConfigNative : Instance → ConfigTree
  | .plain _ vals => vals
  | .wrapped w pre path args post =>
    pre ++ ("model", Value.tree
      [("cls", .str (renderCls w.registry path)), ("params", .tree args)]) :: post

/-- Modelled from the spec: `get_config` — with `simple_types=True` the
native tree passes value-wise through the Type Normalizer's simple mode. -/
def Instance.getConfig (simple : Bool) (m : Instance) : ConfigTree :=
  if simple then normTree m.getConfigNative else m.getConfigNative

/-! ## Config Flattener (§4.3) -/

mutual

/-- Modelled from the spec: `flatten` joins nested keys with the `.`
separator, recursively, stopping at the first non-tree value at each path;
the output enumerates leaves in depth-first declaration order. -/
def flatten : ConfigTree → List (String × Value)
  | [] => []
  | (k, v) :: rest => flattenEntry k v ++ flatten rest
termination_by structural t => t

/-- Flatten one entry: a tree value flattens recursively under dot-joined
keys; any other value is a leaf. -/
def flattenEntry (k : String) : Value → List (String × Value)
  | .tree sub => (flatten sub).map (fun p => (k ++ "." ++ p.1, p.2))
  | v => [(k, v)]
termination_by structural v => v

end

/-- Split a character list at every `'.'`. -/
def splitChars : List Char → List Char → List (List Char)
  | [], acc => [acc.reverse]
  | c :: cs, acc =>
    if c = '.' then acc.reverse :: splitChars cs [] else splitChars cs (c :: acc)

/-- Split a dotted key back into its path components. -/
def splitDots (s : String) : List String :=
  (splitChars s.data []).map (fun cs => ⟨cs⟩)

/-- Insert one value at a component path, creating or extending nested
sub-trees along the path. -/
def insertPath : ConfigTree → List String → Value → ConfigTree
  | t, [], _ => t
  | t, [k], v => t ++ [(k, v)]
  | t, k :: p :: ps, v =>
    if t.any (fun e => e.1 == k) then
      t.map (fun e =>
        if e.1 == k then
          (e.1, match e.2 with
            | .tree sub => .tree (insertPath sub (p :: ps) v)
            | other => other)
        else e)
    else t ++ [(k, Value.tree (insertPath [] (p :: ps) v))]

/-- Modelled from the spec: `unflatten` — rebuild a ConfigTree from a flat
mapping by splitting each dotted key and inserting its leaf (required only to
round-trip flat outputs produced by `flatten`). -/
def unflatten (flat : List (String × Value)) : ConfigTree :=
  flat.foldl (fun t kv => insertPath t (splitDots kv.1) kv.2) []

/-- Modelled from the spec: `get_params` — the flattened configuration,
`flatten(to_config(instance, simple_types))`. -/
def Instance.getParams (simple : Bool) (m : Instance) : List (String × Value) :=
  flatten (m.getConfig simple)

/-! ## The model kinds demonstrated in the notebook -/

/-- The popularity enumeration members' underlying string values. -/
def popularityOptions : List String :=
  ["n_users", "n_interactions", "mean_weight", "sum_weight"]

/-- Modelled from the spec: the `PopularModel` schema, field order and
defaults as reported by the notebook's `get_config` output. -/
def popularKind : Kind := .plain
  [⟨"verbose", .tInt, .int 0⟩,
   ⟨"popularity", .tEnum popularityOptions, .enum "n_users"⟩,
   ⟨"period", .tOpt .tDuration, .null⟩,
   ⟨"begin_from", .tOpt .tStr, .null⟩,
   ⟨"add_cold", .tBool, .bool false⟩,
   ⟨"inverse", .tBool, .bool false⟩]

/-- Modelled from the spec: the `EASEModel` schema (`regularization` is a
float field — the notebook reports the supplied integer `100` back as
`100.0`). -/
def easeKind : Kind := .plain
  [⟨"verbose", .tInt, .int 0⟩,
   ⟨"regularization", .tFloat, .float 500⟩,
   ⟨"num_threads", .tInt, .int 1⟩]

/-- Modelled from the spec: the `PureSVDModel` schema. -/
def pureSVDKind : Kind := .plain
  [⟨"verbose", .tInt, .int 0⟩,
   ⟨"factors", .tInt, .int 10⟩,
   ⟨"tol", .tFloat, .float 0⟩,
   ⟨"maxiter", .tOpt .tInt, .null⟩,
   ⟨"random_state", .tOpt .tInt, .null⟩]

/-- Modelled from the spec: the `RandomModel` schema. -/
def randomKind : Kind := .plain
  [⟨"verbose", .tInt, .int 0⟩,
   ⟨"random_state", .tOpt .tInt, .null⟩]

/-- Modelled from the spec: the `ImplicitItemKNNWrapperModel` wrapper kind —
its registry of the four built-in neighbourhood recommenders, defaulting to
the base `ItemItemRecommender`. -/
def itemKNNKind : Kind := .wrapper
  { preFields := [⟨"verbose", .tInt, .int 0⟩]
    postFields := []
    registry :=
      [("TFIDFRecommender", "implicit.nearest_neighbours.TFIDFRecommender"),
       ("CosineRecommender", "implicit.nearest_neighbours.CosineRecommender"),
       ("BM25Recommender", "implicit.nearest_neighbours.BM25Recommender"),
       ("ItemItemRecommender", "implicit.nearest_neighbours.ItemItemRecommender")]
    defaultCls := "ItemItemRecommender" }

/-- Modelled from the spec: the `ImplicitALSWrapperModel` wrapper kind —
`implicit.als.AlternatingLeastSquares` is used by default. -/
def alsKind : Kind := .wrapper
  { preFields := [⟨"verbose", .tInt, .int 0⟩]
    postFields := [⟨"fit_features_together", .tBool, .bool false⟩]
    registry := [("AlternatingLeastSquares", "implicit.als.AlternatingLeastSquares")]
    defaultCls := "implicit.als.AlternatingLeastSquares" }

/-- Modelled from the spec: the `LightFMWrapperModel` wrapper kind —
`LightFM` is used by default. -/
def lightFMKind : Kind := .wrapper
  { preFields := [⟨"verbose", .tInt, .int 0⟩]
    postFields := [⟨"epochs", .tInt, .int 1⟩, ⟨"num_threads", .tInt, .int 1⟩]
    registry := [("LightFM", "lightfm.lightfm.LightFM")]
    defaultCls := "LightFM" }

/-- The model kinds of the modelled surface. -/
def modelKinds : List Kind :=
  [popularKind, easeKind, pureSVDKind, randomKind, itemKNNKind, alsKind, lightFMKind]

/-- The wrapper kinds of the modelled surface. -/
def wrapperKinds : List Kind := [itemKNNKind, alsKind, lightFMKind]

/-! ## Basic association-list lemmas -/

instance {ε α : Type} [DecidableEq ε] [DecidableEq α] : DecidableEq (Except ε α)
  | .ok a, .ok b =>
    if h : a = b then .isTrue (by rw [h]) else .isFalse (by simp [h])
  | .error a, .error b =>
    if h : a = b then .isTrue (by rw [h]) else .isFalse (by simp [h])
  | .ok _, .error _ => .isFalse (fun h => Except.noConfusion h)
  | .error _, .ok _ => .isFalse (fun h => Except.noConfusion h)

theorem lookup_cons_self {β : Type} (k : String) (v : β) (l : List (String × β)) :
    List.lookup k ((k, v) :: l) = some v := by
  simp [List.lookup_cons]

theorem lookup_cons_ne {β : Type} {k a : String} (v : β) (l : List (String × β))
    (h : a ≠ k) : List.lookup a ((k, v) :: l) = List.lookup a l := by
  simp [List.lookup_cons, beq_eq_false_iff_ne.mpr h]

theorem lookup_append_left {β : Type} {a : String} {l₁ : List (String × β)} {v : β}
    (l₂ : List (String × β)) (h : List.lookup a l₁ = some v) :
    List.lookup a (l₁ ++ l₂) = some v := by
  induction l₁ with
  | nil => simp [List.lookup] at h
  | cons p rest ih =>
    obtain ⟨k, w⟩ := p
    rw [List.cons_append]
    by_cases hk : a = k
    · subst hk
      rw [lookup_cons_self] at h
      rw [lookup_cons_self]
      exact h
    · rw [lookup_cons_ne _ _ hk] at h
      rw [lookup_cons_ne _ _ hk]
      exact ih h

theorem lookup_append_right {β : Type} {a : String} {l₁ : List (String × β)}
    (l₂ : List (String × β)) (h : a ∉ l₁.map Prod.fst) :
    List.lookup a (l₁ ++ l₂) = List.lookup a l₂ := by
  induction l₁ with
  | nil => simp
  | cons p rest ih =>
    obtain ⟨k, w⟩ := p
    simp only [List.map_cons, List.mem_cons, not_or] at h
    rw [List.cons_append, lookup_cons_ne _ _ h.1]
    exact ih h.2

theorem mem_of_lookup_eq_some {β : Type} {a : String} {l : List (String × β)} {v : β}
    (h : List.lookup a l = some v) : (a, v) ∈ l := by
  induction l with
  | nil => simp [List.lookup] at h
  | cons p rest ih =>
    obtain ⟨k, w⟩ := p
    by_cases hk : a = k
    · subst hk
      rw [lookup_cons_self] at h
      obtain rfl := Option.some.inj h
      simp
    · rw [lookup_cons_ne _ _ hk] at h
      exact List.mem_cons_of_mem _ (ih h)

theorem lookup_of_mem_nodup {β : Type} {l : List (String × β)} {p : String × β}
    (hmem : p ∈ l) (hnd : (l.map Prod.fst).Nodup) : List.lookup p.1 l = some p.2 := by
  induction l with
  | nil => simp at hmem
  | cons q rest ih =>
    simp only [List.map_cons, List.nodup_cons] at hnd
    rcases List.mem_cons.mp hmem with h | h
    · subst h
      exact lookup_cons_self _ _ _
    · have hne : p.1 ≠ q.1 := by
        intro he
        exact hnd.1 (he ▸ List.mem_map_of_mem Prod.fst h)
      rw [show (q :: rest : List (String × β)) = (q.1, q.2) :: rest from rfl,
        lookup_cons_ne _ _ hne]
      exact ih h hnd.2

theorem lookup_map_self {β : Type} {sg : List (String × β)} (g : String × β → β)
    (hnd : (sg.map Prod.fst).Nodup) {sp : String × β} (hmem : sp ∈ sg) :
    List.lookup sp.1 (sg.map (fun q => (q.1, g q))) = some (g sp) := by
  have : (sp.1, g sp) ∈ sg.map (fun q => (q.1, g q)) :=
    List.mem_map_of_mem _ hmem
  have hk : ((sg.map (fun q => (q.1, g q))).map Prod.fst).Nodup := by
    simpa [List.map_map, Function.comp] using hnd
  exact lookup_of_mem_nodup this hk

/-! ## Coercion lemmas -/

theorem isDurComponents_durTree (d : Duration) : isDurComponents (durTree d) = true := by
  unfold durTree
  split
  · simp [isDurComponents, Value.isInt]
  · rename_i hne
    unfold durTreeRaw at hne ⊢
    split_ifs at hne ⊢ <;>
      simp_all [isDurComponents, Value.isInt]

/-- Coercion is idempotent: a value that survived coercion coerces to itself. -/
theorem coerceValue_idem {ty : FieldType} {v w : Value}
    (h : coerceValue ty v = some w) : coerceValue ty w = some w := by
  induction ty generalizing v w with
  | tInt =>
    cases v <;> simp only [coerceValue] at h <;> try exact Option.noConfusion h
    obtain rfl := Option.some.inj h
    simp [coerceValue]
  | tFloat =>
    cases v <;> simp only [coerceValue] at h <;> try exact Option.noConfusion h
    all_goals
      obtain rfl := Option.some.inj h
      simp [coerceValue]
  | tStr =>
    cases v <;> simp only [coerceValue] at h <;> try exact Option.noConfusion h
    obtain rfl := Option.some.inj h
    simp [coerceValue]
  | tBool =>
    cases v <;> simp only [coerceValue] at h <;> try exact Option.noConfusion h
    obtain rfl := Option.some.inj h
    simp [coerceValue]
  | tEnum allowed =>
    cases v <;> simp only [coerceValue] at h <;> try exact Option.noConfusion h
    all_goals
      rename_i s
      by_cases hs : s ∈ allowed
      · rw [if_pos hs] at h
        obtain rfl := Option.some.inj h
        simp [coerceValue, hs]
      · rw [if_neg hs] at h
        exact Option.noConfusion h
  | tDuration =>
    cases v <;> simp only [coerceValue] at h <;> try exact Option.noConfusion h
    · rename_i d
      obtain rfl := Option.some.inj h
      simp [coerceValue, isDurComponents_durTree]
    · rename_i t
      by_cases hd : isDurComponents t = true
      · rw [if_pos hd] at h
        obtain rfl := Option.some.inj h
        simp [coerceValue, hd]
      · rw [if_neg hd] at h
        exact Option.noConfusion h
  | tOpt base ih =>
    cases v with
    | null =>
      simp only [coerceValue] at h
      obtain rfl := Option.some.inj h
      simp [coerceValue]
    | int n =>
      have hw := ih (show coerceValue base (.int n) = some w from h)
      cases w <;> first | exact hw | simp [coerceValue]
    | float q =>
      have hw := ih (show coerceValue base (.float q) = some w from h)
      cases w <;> first | exact hw | simp [coerceValue]
    | str s =>
      have hw := ih (show coerceValue base (.str s) = some w from h)
      cases w <;> first | exact hw | simp [coerceValue]
    | bool b =>
      have hw := ih (show coerceValue base (.bool b) = some w from h)
      cases w <;> first | exact hw | simp [coerceValue]
    | enum s =>
      have hw := ih (show coerceValue base (.enum s) = some w from h)
      cases w <;> first | exact hw | simp [coerceValue]
    | dur d =>
      have hw := ih (show coerceValue base (.dur d) = some w from h)
      cases w <;> first | exact hw | simp [coerceValue]
    | tree t =>
      have hw := ih (show coerceValue base (.tree t) = some w from h)
      cases w <;> first | exact hw | simp [coerceValue]

/-! ## Schema construction lemmas -/

/-- The built values line up with the schema: names in declaration order and
every value a fixpoint of its field's coercion. -/
def valsAligned : List Field → ConfigTree → Prop
  | [], [] => True
  | f :: fs, (k, v) :: vs =>
    k = f.name ∧ coerceValue f.type v = some v ∧ valsAligned fs vs
  | _, _ => False

/-- Every aligned value can be looked up in `u` under its field name. -/
def alignedLookup : List Field → ConfigTree → ConfigTree → Prop
  | [], [], _ => True
  | f :: fs, (_, v) :: vs, u => List.lookup f.name u = some v ∧ alignedLookup fs vs u
  | _, _, _ => False

theorem valsAligned_keys {fs : List Field} {vs : ConfigTree}
    (h : valsAligned fs vs) : vs.map Prod.fst = fieldNames fs := by
  induction fs generalizing vs with
  | nil => cases vs with
    | nil => rfl
    | cons p vs => exact absurd h (by simp [valsAligned])
  | cons f fs ih =>
    cases vs with
    | nil => exact absurd h (by simp [valsAligned])
    | cons p vs =>
      obtain ⟨k, v⟩ := p
      obtain ⟨hk, _, htail⟩ := h
      simp [fieldNames, hk, ih htail]

theorem buildVals_aligned {fs : List Field} {t vs : ConfigTree}
    (hd : ∀ f ∈ fs, coerceValue f.type f.dflt = some f.dflt)
    (h : buildVals fs t = .ok vs) : valsAligned fs vs := by
  induction fs generalizing vs with
  | nil =>
    simp only [buildVals] at h
    obtain rfl := Except.ok.inj h
    trivial
  | cons f fs ih =>
    simp only [buildVals] at h
    split at h
    · rename_i raw hlk
      split at h
      · rename_i v hco
        split at h
        · rename_i tail htail
          obtain rfl := Except.ok.inj h
          exact ⟨rfl, coerceValue_idem hco,
            ih (fun g hg => hd g (List.mem_cons_of_mem _ hg)) htail⟩
        · exact Except.noConfusion h
      · exact Except.noConfusion h
    · rename_i hlk
      split at h
      · rename_i tail htail
        obtain rfl := Except.ok.inj h
        exact ⟨rfl, hd f (List.mem_cons_self _ _),
          ih (fun g hg => hd g (List.mem_cons_of_mem _ hg)) htail⟩
      · exact Except.noConfusion h

theorem buildVals_of_alignedLookup {fs : List Field} {vs u : ConfigTree}
    (ha : valsAligned fs vs) (hl : alignedLookup fs vs u) :
    buildVals fs u = .ok vs := by
  induction fs generalizing vs with
  | nil =>
    cases vs with
    | nil => rfl
    | cons p vs => exact absurd ha (by simp [valsAligned])
  | cons f fs ih =>
    cases vs with
    | nil => exact absurd ha (by simp [valsAligned])
    | cons p vs =>
      obtain ⟨k, v⟩ := p
      obtain ⟨hk, hco, hta⟩ := ha
      obtain ⟨hlk, htl⟩ := hl
      subst hk
      simp only [buildVals, hlk, hco, ih hta htl]

theorem alignedLookup_cons {fs : List Field} {vs u : ConfigTree} {k : String}
    {w : Value} (h : alignedLookup fs vs u) (hne : ∀ f ∈ fs, f.name ≠ k) :
    alignedLookup fs vs ((k, w) :: u) := by
  induction fs generalizing vs with
  | nil =>
    cases vs with
    | nil => trivial
    | cons p vs => exact absurd h (by simp [alignedLookup])
  | cons f fs ih =>
    cases vs with
    | nil => exact absurd h (by simp [alignedLookup])
    | cons p vs =>
      obtain ⟨hlk, htl⟩ := h
      exact ⟨by rw [lookup_cons_ne _ _ (hne f (List.mem_cons_self _ _))]; exact hlk,
        ih htl (fun g hg => hne g (List.mem_cons_of_mem _ hg))⟩

theorem alignedLookup_prepend {fs : List Field} {vs u : ConfigTree}
    (ext : ConfigTree) (h : alignedLookup fs vs u)
    (hne : ∀ f ∈ fs, f.name ∉ ext.map Prod.fst) :
    alignedLookup fs vs (ext ++ u) := by
  induction ext with
  | nil => simpa using h
  | cons p rest ih =>
    obtain ⟨k, w⟩ := p
    rw [List.cons_append]
    refine alignedLookup_cons (ih ?_) ?_
    · intro f hf
      have := hne f hf
      simp only [List.map_cons, List.mem_cons, not_or] at this
      exact this.2
    · intro f hf he
      have := hne f hf
      simp only [List.map_cons, List.mem_cons, not_or] at this
      exact this.1 he

theorem alignedLookup_append {fs : List Field} {vs u : ConfigTree}
    (ext : ConfigTree) (h : alignedLookup fs vs u) :
    alignedLookup fs vs (u ++ ext) := by
  induction fs generalizing vs with
  | nil =>
    cases vs with
    | nil => trivial
    | cons p vs => exact absurd h (by simp [alignedLookup])
  | cons f fs ih =>
    cases vs with
    | nil => exact absurd h (by simp [alignedLookup])
    | cons p vs =>
      obtain ⟨hlk, htl⟩ := h
      exact ⟨lookup_append_left _ hlk, ih htl⟩

theorem alignedLookup_self {fs : List Field} {vs : ConfigTree}
    (ha : valsAligned fs vs) (hnd : (fieldNames fs).Nodup) :
    alignedLookup fs vs vs := by
  induction fs generalizing vs with
  | nil =>
    cases vs with
    | nil => trivial
    | cons p vs => exact absurd ha (by simp [valsAligned])
  | cons f fs ih =>
    cases vs with
    | nil => exact absurd ha (by simp [valsAligned])
    | cons p vs =>
      obtain ⟨k, v⟩ := p
      obtain ⟨hk, hco, hta⟩ := ha
      subst hk
      simp only [fieldNames, List.map_cons, List.nodup_cons] at hnd
      refine ⟨lookup_cons_self _ _ _, alignedLookup_cons (ih hta hnd.2) ?_⟩
      intro g hg he
      exact hnd.1 (he ▸ List.mem_map_of_mem Field.name hg)

theorem checkKeys_ok {t : ConfigTree} {allowed : List String}
    (h : ∀ p ∈ t, p.1 ∈ allowed) : checkKeys t allowed = .ok () := by
  unfold checkKeys
  have : t.find? (fun p => !(allowed.contains p.1)) = none := by
    rw [List.find?_eq_none]
    intro p hp
    simp [List.contains, List.elem_iff, h p hp]
  rw [this]

theorem checkKeys_error {t : ConfigTree} {allowed : List String} {key : String}
    {v : Value} (hmem : (key, v) ∈ t) (hbad : key ∉ allowed) :
    ∃ bad, checkKeys t allowed = .error (.schemaValidation bad) := by
  have hsome : (t.find? (fun p => !(allowed.contains p.1))).isSome = true := by
    rw [List.find?_isSome]
    exact ⟨(key, v), hmem, by simp [List.contains, List.elem_iff, hbad]⟩
  cases hf : t.find? (fun p => !(allowed.contains p.1)) with
  | none => rw [hf] at hsome; exact Bool.noConfusion hsome
  | some bad => exact ⟨bad.1, by unfold checkKeys; rw [hf]⟩

theorem buildVals_nil (fs : List Field) :
    buildVals fs [] = .ok (fs.map (fun f => (f.name, f.dflt))) := by
  induction fs with
  | nil => rfl
  | cons f fs ih => simp only [buildVals, List.lookup, ih, List.map_cons]

/-! ## Wellformedness of schemas and trees -/

/-- A usable field/key name: nonempty and free of the path separator. -/
def goodKey (s : String) : Bool := !s.isEmpty && !(s.data.contains '.')

mutual

/-- A value safe for flattening: nested trees are nonempty, with unique,
separator-free keys, recursively. -/
def Value.wfVal : Value → Bool
  | .tree sub => !sub.isEmpty && wfTree sub
  | _ => true
termination_by structural v => v

/-- A tree safe for flattening. -/
def wfTree : ConfigTree → Bool
  | [] => true
  | (k, v) :: rest =>
    goodKey k && !(rest.any (fun e => e.1 == k)) && v.wfVal && wfTree rest
termination_by structural t => t

end

/-- A wellformed schema: distinct, usable field names and defaults that are
fixpoints of their own coercion. -/
def wfFields (fs : List Field) : Prop :=
  (fieldNames fs).Nodup ∧
  ∀ f ∈ fs, goodKey f.name = true ∧ coerceValue f.type f.dflt = some f.dflt ∧
    f.dflt.wfVal = true

/-- A wellformed wrapper kind: wellformed wrapper-level schemas, distinct
top-level names, a registry with distinct aliases all reaching known types
and never shadowing a fully-qualified path, and a resolvable default
selector. -/
def WrapperSpec.wellformed (w : WrapperSpec) : Prop :=
  wfFields w.preFields ∧ wfFields w.postFields ∧
  (wrapperAllowed w).Nodup ∧
  (w.registry.map Prod.fst).Nodup ∧
  (∀ p ∈ w.registry, (List.lookup p.2 knownTypes).isSome = true) ∧
  (∀ e ∈ knownTypes, List.lookup e.1 w.registry = none) ∧
  ∃ path ∈ knownTypes.map Prod.fst, resolveSelector w.registry w.defaultCls = .ok path

/-- A wellformed model kind. -/
def Kind.wf : Kind → Prop
  | .plain fs => wfFields fs
  | .wrapper w => w.wellformed

instance wfFieldsDecidable (fs : List Field) : Decidable (wfFields fs) := by
  unfold wfFields
  infer_instance

instance wrapperWellformedDecidable (w : WrapperSpec) : Decidable w.wellformed := by
  unfold WrapperSpec.wellformed
  infer_instance

instance kindWfDecidable : (k : Kind) → Decidable k.wf
  | .plain fs => wfFieldsDecidable fs
  | .wrapper w => wrapperWellformedDecidable w

/-- Every known constructible type has a nonempty, wellformed signature. -/
theorem knownTypes_wf : ∀ e ∈ knownTypes, e.2 ≠ [] ∧ wfTree e.2 = true := by
  decide

theorem wfTree_nodup_keys {t : ConfigTree} (h : wfTree t = true) :
    (t.map Prod.fst).Nodup := by
  induction t with
  | nil => simp
  | cons p rest ih =>
    obtain ⟨k, v⟩ := p
    simp only [wfTree, Bool.and_eq_true] at h
    obtain ⟨⟨⟨_, hnotin⟩, _⟩, hrest⟩ := h
    rw [List.map_cons, List.nodup_cons]
    refine ⟨?_, ih hrest⟩
    intro hmem
    obtain ⟨e, he, hfst⟩ := List.mem_map.mp hmem
    have : rest.any (fun e => e.1 == k) = true :=
      List.any_eq_true.mpr ⟨e, he, by simp [hfst]⟩
    simp [this] at hnotin

/-! ## Resolver lemmas -/

theorem resolve_ok_lookup {reg : List (String × String)} {sel path : String}
    (h : resolveSelector reg sel = .ok path)
    (hreg : ∀ p ∈ reg, (List.lookup p.2 knownTypes).isSome = true) :
    (List.lookup path knownTypes).isSome = true := by
  unfold resolveSelector at h
  split at h
  · rename_i hlk
    obtain rfl := Except.ok.inj h
    exact hreg _ (mem_of_lookup_eq_some hlk)
  · split at h
    · obtain rfl := Except.ok.inj h
      rename_i sg hkt
      simp [hkt]
    · exact Except.noConfusion h

theorem renderCls_resolve {reg : List (String × String)} {path : String}
    {sg : ConfigTree} (hnd : (reg.map Prod.fst).Nodup)
    (hsh : ∀ e ∈ knownTypes, List.lookup e.1 reg = none)
    (hkt : List.lookup path knownTypes = some sg) :
    resolveSelector reg (renderCls reg path) = .ok path := by
  unfold renderCls
  cases hf : reg.find? (fun p => p.2 == path) with
  | some pr =>
    have hmem := List.mem_of_find?_eq_some hf
    have hp : pr.2 = path := by
      have := List.find?_some hf
      simpa using this
    unfold resolveSelector
    rw [lookup_of_mem_nodup hmem hnd, hp]
  | none =>
    unfold resolveSelector
    rw [hsh _ (mem_of_lookup_eq_some hkt), hkt]

/-! ## Merge lemmas -/

theorem mergeArgs_map_fst (sg prms : ConfigTree) :
    (mergeArgs sg prms).map Prod.fst = sg.map Prod.fst := by
  simp [mergeArgs, List.map_map, Function.comp]

theorem mergeArgs_self {sg : ConfigTree} (prms : ConfigTree)
    (hnd : (sg.map Prod.fst).Nodup) :
    mergeArgs sg (mergeArgs sg prms) = mergeArgs sg prms := by
  unfold mergeArgs
  refine List.map_congr_left ?_
  intro sp hsp
  rw [lookup_map_self (fun q => (List.lookup q.1 prms).getD q.2) hnd hsp]
  rfl

/-! ## Round trip: plain kinds -/

theorem fromConfigPlain_roundtrip {fs : List Field} {t vs : ConfigTree}
    (hw : wfFields fs) (h : fromConfigPlain fs t = .ok vs) :
    fromConfigPlain fs vs = .ok vs := by
  unfold fromConfigPlain at h
  split at h
  · exact Except.noConfusion h
  · have ha := buildVals_aligned (fun f hf => (hw.2 f hf).2.1) h
    have hkeys := valsAligned_keys ha
    unfold fromConfigPlain
    rw [checkKeys_ok (fun p hp => by
      rw [← hkeys]; exact List.mem_map_of_mem Prod.fst hp)]
    exact buildVals_of_alignedLookup ha (alignedLookup_self ha hw.1)

/-! ## Round trip: wrapper kinds -/

theorem fromConfigWrapper_inv {w : WrapperSpec} {t : ConfigTree} {m : Instance}
    (hm : fromConfigWrapper w t = .ok m) :
    ∃ mt sel path sg prms pre post,
      checkKeys t (wrapperAllowed w) = .ok () ∧
      getModelTree t = .ok mt ∧
      checkModelKeys mt = .ok () ∧
      getCls mt w.defaultCls = .ok sel ∧
      resolveSelector w.registry sel = .ok path ∧
      List.lookup path knownTypes = some sg ∧
      getParamsTree mt = .ok prms ∧
      prms.find? (fun p => !((sg.map Prod.fst).contains p.1)) = none ∧
      buildVals w.preFields t = .ok pre ∧
      buildVals w.postFields t = .ok post ∧
      m = .wrapped w pre path (mergeArgs sg prms) post := by
  unfold fromConfigWrapper at hm
  split at hm
  · exact Except.noConfusion hm
  · rename_i u hck
    unfold wrapperModelStage at hm
    split at hm
    · exact Except.noConfusion hm
    · rename_i mt hmt
      unfold wrapperModelKeys at hm
      split at hm
      · exact Except.noConfusion hm
      · rename_i u2 hcm
        unfold wrapperCls at hm
        split at hm
        · exact Except.noConfusion hm
        · rename_i sel hcls
          unfold wrapperResolve at hm
          split at hm
          · exact Except.noConfusion hm
          · rename_i path hres
            unfold wrapperSig at hm
            split at hm
            · exact Except.noConfusion hm
            · rename_i sg hkt
              unfold wrapperParams at hm
              split at hm
              · exact Except.noConfusion hm
              · rename_i prms hpt
                unfold wrapperConstruct at hm
                split at hm
                · exact Except.noConfusion hm
                · rename_i hfind
                  unfold wrapperBuild at hm
                  split at hm
                  · exact Except.noConfusion hm
                  · rename_i pre hpre
                    split at hm
                    · exact Except.noConfusion hm
                    · rename_i post hpost
                      obtain rfl := (Except.ok.inj hm).symm
                      cases u
                      cases u2
                      exact ⟨mt, sel, path, sg, prms, pre, post, hck, hmt, hcm,
                        hcls, hres, hkt, hpt, hfind, hpre, hpost, rfl⟩

theorem fromConfigWrapper_keys_ok {w : WrapperSpec} {t : ConfigTree}
    (h : checkKeys t (wrapperAllowed w) = .ok ()) :
    fromConfigWrapper w t = wrapperModelStage w t := by
  unfold fromConfigWrapper; rw [h]

theorem wrapperModelStage_ok {w : WrapperSpec} {t mt : ConfigTree}
    (h : getModelTree t = .ok mt) :
    wrapperModelStage w t = wrapperModelKeys w t mt := by
  unfold wrapperModelStage; rw [h]

theorem wrapperModelKeys_ok {w : WrapperSpec} {t mt : ConfigTree}
    (h : checkModelKeys mt = .ok ()) :
    wrapperModelKeys w t mt = wrapperCls w t mt := by
  unfold wrapperModelKeys; rw [h]

theorem wrapperCls_ok {w : WrapperSpec} {t mt : ConfigTree} {sel : String}
    (h : getCls mt w.defaultCls = .ok sel) :
    wrapperCls w t mt = wrapperResolve w t mt sel := by
  unfold wrapperCls; rw [h]

theorem wrapperResolve_ok {w : WrapperSpec} {t mt : ConfigTree} {sel path : String}
    (h : resolveSelector w.registry sel = .ok path) :
    wrapperResolve w t mt sel = wrapperSig w t mt path := by
  unfold wrapperResolve; rw [h]

theorem wrapperSig_ok {w : WrapperSpec} {t mt : ConfigTree} {path : String}
    {sg : ConfigTree} (h : List.lookup path knownTypes = some sg) :
    wrapperSig w t mt path = wrapperParams w t mt path sg := by
  unfold wrapperSig; rw [h]

theorem wrapperParams_ok {w : WrapperSpec} {t mt : ConfigTree} {path : String}
    {sg prms : ConfigTree} (h : getParamsTree mt = .ok prms) :
    wrapperParams w t mt path sg = wrapperConstruct w t path sg prms := by
  unfold wrapperParams; rw [h]

theorem wrapperConstruct_ok {w : WrapperSpec} {t : ConfigTree} {path : String}
    {sg prms : ConfigTree}
    (h : prms.find? (fun p => !((sg.map Prod.fst).contains p.1)) = none) :
    wrapperConstruct w t path sg prms = wrapperBuild w t path sg prms := by
  unfold wrapperConstruct; rw [h]

theorem wrapperBuild_ok {w : WrapperSpec} {t : ConfigTree} {path : String}
    {sg prms pre post : ConfigTree} (h1 : buildVals w.preFields t = .ok pre)
    (h2 : buildVals w.postFields t = .ok post) :
    wrapperBuild w t path sg prms =
      .ok (.wrapped w pre path (mergeArgs sg prms) post) := by
  unfold wrapperBuild; rw [h1, h2]

theorem fromConfigWrapper_roundtrip {w : WrapperSpec} {t : ConfigTree}
    {m : Instance} (hw : w.wellformed) (h : fromConfigWrapper w t = .ok m) :
    fromConfigWrapper w m.getConfigNative = .ok m := by
  obtain ⟨mt, sel, path, sg, prms, pre, post, hck, hmt, hcm, hcls, hres, hkt,
    hpt, hfind, hpre, hpost, rfl⟩ := fromConfigWrapper_inv h
  obtain ⟨hwpre, hwpost, hndall, hndreg, hregkt, hshadow, _⟩ := hw
  have haPre := buildVals_aligned (fun f hf => (hwpre.2 f hf).2.1) hpre
  have haPost := buildVals_aligned (fun f hf => (hwpost.2 f hf).2.1) hpost
  have hkPre := valsAligned_keys haPre
  have hkPost := valsAligned_keys haPost
  have hsgnd : (sg.map Prod.fst).Nodup :=
    wfTree_nodup_keys (knownTypes_wf _ (mem_of_lookup_eq_some hkt)).2
  have hndsplit := List.nodup_append.mp (by
    simpa [wrapperAllowed] using hndall)
  have hmodel_notin_pre : "model" ∉ fieldNames w.preFields := by
    intro hmem
    exact hndsplit.2.2 hmem (List.mem_cons_self _ _)
  -- the emitted configuration
  have hconf : (Instance.wrapped w pre path (mergeArgs sg prms) post).getConfigNative =
      pre ++ ("model", Value.tree
        [("cls", .str (renderCls w.registry path)),
         ("params", .tree (mergeArgs sg prms))]) :: post := rfl
  have hck2 : checkKeys (pre ++ ("model", Value.tree
      [("cls", .str (renderCls w.registry path)),
       ("params", .tree (mergeArgs sg prms))]) :: post)
      (wrapperAllowed w) = .ok () := by
    refine checkKeys_ok (fun p hp => ?_)
    rcases List.mem_append.mp hp with hp | hp
    · have hx : p.1 ∈ pre.map Prod.fst := List.mem_map_of_mem Prod.fst hp
      rw [hkPre] at hx
      exact List.mem_append.mpr (Or.inl hx)
    · rcases List.mem_cons.mp hp with hp | hp
      · subst hp
        exact List.mem_append.mpr (Or.inr (List.mem_cons_self _ _))
      · have hx : p.1 ∈ post.map Prod.fst := List.mem_map_of_mem Prod.fst hp
        rw [hkPost] at hx
        exact List.mem_append.mpr (Or.inr (List.mem_cons_of_mem _ hx))
  have hmt2 : getModelTree (pre ++ ("model", Value.tree
      [("cls", .str (renderCls w.registry path)),
       ("params", .tree (mergeArgs sg prms))]) :: post) =
      .ok [("cls", .str (renderCls w.registry path)),
           ("params", .tree (mergeArgs sg prms))] := by
    unfold getModelTree
    rw [lookup_append_right _ (by rw [hkPre]; exact hmodel_notin_pre),
      lookup_cons_self]
  have hfind2 : (mergeArgs sg prms).find?
      (fun p => !((sg.map Prod.fst).contains p.1)) = none := by
    rw [List.find?_eq_none]
    intro p hp
    have hx : p.1 ∈ (mergeArgs sg prms).map Prod.fst := List.mem_map_of_mem Prod.fst hp
    rw [mergeArgs_map_fst] at hx
    simp [List.contains, List.elem_iff, hx]
  have hpre2 : buildVals w.preFields (pre ++ ("model", Value.tree
      [("cls", .str (renderCls w.registry path)),
       ("params", .tree (mergeArgs sg prms))]) :: post) = .ok pre :=
    buildVals_of_alignedLookup haPre
      (alignedLookup_append _ (alignedLookup_self haPre hwpre.1))
  have hpost2 : buildVals w.postFields (pre ++ ("model", Value.tree
      [("cls", .str (renderCls w.registry path)),
       ("params", .tree (mergeArgs sg prms))]) :: post) = .ok post := by
    rw [show pre ++ ("model", Value.tree
        [("cls", .str (renderCls w.registry path)),
         ("params", .tree (mergeArgs sg prms))]) :: post =
      (pre ++ [("model", Value.tree
        [("cls", .str (renderCls w.registry path)),
         ("params", .tree (mergeArgs sg prms))])]) ++ post by simp]
    refine buildVals_of_alignedLookup haPost
      (alignedLookup_prepend _ (alignedLookup_self haPost hwpost.1) ?_)
    intro f hf
    rw [List.map_append, hkPre]
    simp only [List.map_cons, List.map_nil]
    intro hmem
    rcases List.mem_append.mp hmem with hmem | hmem
    · exact hndsplit.2.2 hmem
        (List.mem_cons_of_mem _ (List.mem_map_of_mem Field.name hf))
    · rcases List.mem_cons.mp hmem with hmem | hmem
      · have hpostnd := hndsplit.2.1
        rw [List.nodup_cons] at hpostnd
        exact hpostnd.1 (hmem ▸ List.mem_map_of_mem Field.name hf)
      · simp at hmem
  have hcm2 : checkModelKeys
      [("cls", Value.str (renderCls w.registry path)),
       ("params", Value.tree (mergeArgs sg prms))] = .ok () := rfl
  have hcls2 : getCls
      [("cls", Value.str (renderCls w.registry path)),
       ("params", Value.tree (mergeArgs sg prms))] w.defaultCls =
      .ok (renderCls w.registry path) := rfl
  have hpt2 : getParamsTree
      [("cls", Value.str (renderCls w.registry path)),
       ("params", Value.tree (mergeArgs sg prms))] =
      .ok (mergeArgs sg prms) := rfl
  rw [hconf, fromConfigWrapper_keys_ok hck2, wrapperModelStage_ok hmt2,
    wrapperModelKeys_ok hcm2, wrapperCls_ok hcls2,
    wrapperResolve_ok (renderCls_resolve hndreg hshadow hkt),
    wrapperSig_ok hkt, wrapperParams_ok hpt2, wrapperConstruct_ok hfind2,
    wrapperBuild_ok hpre2 hpost2, mergeArgs_self prms hsgnd]

/-! ## Round trip at the kind level -/

theorem Kind.fromConfig_roundtrip {k : Kind} {t : ConfigTree} {m : Instance}
    (hk : k.wf) (hm : k.fromConfig t = .ok m) :
    k.fromConfig (m.getConfig false) = .ok m := by
  cases k with
  | plain fs =>
    simp only [Kind.fromConfig] at hm ⊢
    split at hm
    · rename_i vals hv
      obtain rfl := (Except.ok.inj hm).symm
      have : Instance.getConfig false (.plain fs vals) = vals := rfl
      rw [this, fromConfigPlain_roundtrip hk hv]
    · exact Except.noConfusion hm
  | wrapper w =>
    simp only [Kind.fromConfig] at hm ⊢
    have : Instance.getConfig false m = m.getConfigNative := rfl
    rw [this]
    exact fromConfigWrapper_roundtrip hk hm

/-! ## Default configurations -/

/-- The documented default configuration of a kind: every declared field with
its declared default; for a wrapper kind the `model` field holds the default
selector (rendered short) and the default implementation's own constructor
defaults (`none` when the default selector does not resolve). -/
def Kind.defaultConfig : Kind → Option ConfigTree
  | .plain fs => some (fs.map (fun f => (f.name, f.dflt)))
  | .wrapper w =>
    match resolveSelector w.registry w.defaultCls with
    | .error _ => none
    | .ok path =>
      match List.lookup path knownTypes with
      | none => none
      | some sg => some
          (w.preFields.map (fun f => (f.name, f.dflt)) ++
           ("model", Value.tree
             [("cls", .str (renderCls w.registry path)),
              ("params", .tree sg)]) ::
           w.postFields.map (fun f => (f.name, f.dflt)))

theorem mergeArgs_nil (sg : ConfigTree) : mergeArgs sg [] = sg := by
  induction sg with
  | nil => rfl
  | cons sp rest ih =>
    obtain ⟨k, v⟩ := sp
    show (k, (List.lookup k ([] : ConfigTree)).getD v) :: mergeArgs rest [] =
      (k, v) :: rest
    rw [ih]
    rfl

theorem fromConfig_empty (k : Kind) (hk : k.wf) :
    ∃ m, k.fromConfig [] = .ok m ∧ some (m.getConfig false) = k.defaultConfig := by
  cases k with
  | plain fs =>
    refine ⟨.plain fs (fs.map (fun f => (f.name, f.dflt))), ?_, ?_⟩
    · have hp : fromConfigPlain fs [] = .ok (fs.map (fun f => (f.name, f.dflt))) := by
        unfold fromConfigPlain
        rw [checkKeys_ok (by simp), buildVals_nil]
      simp only [Kind.fromConfig, hp]
    · rfl
  | wrapper w =>
    obtain ⟨_, _, _, _, hregkt, _, path0, hpmem, hres⟩ := hk
    have hktS : (List.lookup path0 knownTypes).isSome = true :=
      resolve_ok_lookup hres hregkt
    obtain ⟨sg, hkt⟩ := Option.isSome_iff_exists.mp hktS
    refine ⟨.wrapped w (w.preFields.map (fun f => (f.name, f.dflt))) path0 sg
      (w.postFields.map (fun f => (f.name, f.dflt))), ?_, ?_⟩
    · have hb : wrapperBuild w [] path0 sg [] =
          .ok (.wrapped w (w.preFields.map (fun f => (f.name, f.dflt))) path0
            (mergeArgs sg []) (w.postFields.map (fun f => (f.name, f.dflt)))) :=
        wrapperBuild_ok (buildVals_nil _) (buildVals_nil _)
      rw [mergeArgs_nil] at hb
      have h1 : checkKeys ([] : ConfigTree) (wrapperAllowed w) = .ok () := rfl
      have h2 : getModelTree ([] : ConfigTree) = .ok [] := rfl
      have h3 : checkModelKeys ([] : ConfigTree) = .ok () := rfl
      have h4 : getCls ([] : ConfigTree) w.defaultCls = .ok w.defaultCls := rfl
      have h7 : getParamsTree ([] : ConfigTree) = .ok [] := rfl
      have h8 : ([] : ConfigTree).find?
          (fun p => !((sg.map Prod.fst).contains p.1)) = none := rfl
      show fromConfigWrapper w [] = _
      rw [fromConfigWrapper_keys_ok h1, wrapperModelStage_ok h2,
        wrapperModelKeys_ok h3, wrapperCls_ok h4, wrapperResolve_ok hres,
        wrapperSig_ok hkt, wrapperParams_ok h7, wrapperConstruct_ok h8, hb]
    · show some (_ ++ _ :: _) = (Kind.wrapper w).defaultConfig
      simp only [Kind.defaultConfig]
      split
      · rename_i heq
        rw [heq] at hres
        exact Except.noConfusion hres
      · rename_i path heq
        rw [heq] at hres
        obtain rfl := Except.ok.inj hres
        split
        · rename_i heq2
          rw [heq2] at hkt
          exact Option.noConfusion hkt
        · rename_i sg' heq2
          rw [heq2] at hkt
          obtain rfl := Option.some.inj hkt
          rfl

theorem fromConfig_keys {k : Kind} {t : ConfigTree} {m : Instance} (hk : k.wf)
    (hm : k.fromConfig t = .ok m) :
    (m.getConfig false).map Prod.fst = k.declaredNames := by
  cases k with
  | plain fs =>
    simp only [Kind.fromConfig] at hm
    split at hm
    · rename_i vals hv
      obtain rfl := (Except.ok.inj hm).symm
      unfold fromConfigPlain at hv
      split at hv
      · exact Except.noConfusion hv
      · exact valsAligned_keys
          (buildVals_aligned (fun f hf => (hk.2 f hf).2.1) hv)
    · exact Except.noConfusion hm
  | wrapper w =>
    obtain ⟨mt, sel, path, sg, prms, pre, post, _, _, _, _, _, _, _, _, hpre,
      hpost, rfl⟩ := fromConfigWrapper_inv hm
    obtain ⟨hwpre, hwpost, _⟩ := hk
    have hkPre := valsAligned_keys
      (buildVals_aligned (fun f hf => (hwpre.2 f hf).2.1) hpre)
    have hkPost := valsAligned_keys
      (buildVals_aligned (fun f hf => (hwpost.2 f hf).2.1) hpost)
    show (pre ++ _ :: post).map Prod.fst = wrapperAllowed w
    rw [List.map_append, List.map_cons, hkPre, hkPost]
    rfl

theorem lookup_eq_none_of_not_mem {β : Type} {l : List (String × β)} {a : String}
    (h : a ∉ l.map Prod.fst) : List.lookup a l = none := by
  induction l with
  | nil => rfl
  | cons p rest ih =>
    obtain ⟨k, w⟩ := p
    simp only [List.map_cons, List.mem_cons, not_or] at h
    rw [lookup_cons_ne _ _ h.1]
    exact ih h.2

theorem lookup_isSome_of_mem {β : Type} {l : List (String × β)} {a : String}
    (h : a ∈ l.map Prod.fst) : (List.lookup a l).isSome = true := by
  induction l with
  | nil => simp at h
  | cons p rest ih =>
    obtain ⟨k, w⟩ := p
    by_cases hk : a = k
    · subst hk
      rw [lookup_cons_self]
      rfl
    · rw [lookup_cons_ne _ _ hk]
      simp only [List.map_cons, List.mem_cons] at h
      rcases h with h | h
      · exact absurd h hk
      · exact ih h

theorem defaultsMap_keys (fs : List Field) :
    (fs.map (fun f => (f.name, f.dflt))).map Prod.fst = fieldNames fs := by
  rw [List.map_map]
  rfl

/-- A field the input does not supply is filled with its declared default:
its value in the built list equals its value in the pure defaults list. -/
theorem buildVals_not_supplied {fs : List Field} {t vs : ConfigTree}
    {name : String} (h : buildVals fs t = .ok vs)
    (hns : List.lookup name t = none) :
    List.lookup name vs = List.lookup name (fs.map (fun f => (f.name, f.dflt))) := by
  induction fs generalizing vs with
  | nil =>
    simp only [buildVals] at h
    obtain rfl := Except.ok.inj h
    rfl
  | cons f fs ih =>
    simp only [buildVals] at h
    split at h
    · rename_i raw hlk
      split at h
      · rename_i v hco
        split at h
        · rename_i tail htail
          obtain rfl := Except.ok.inj h
          by_cases hn : name = f.name
          · subst hn
            rw [hlk] at hns
            exact Option.noConfusion hns
          · rw [List.map_cons, lookup_cons_ne _ _ hn, lookup_cons_ne _ _ hn]
            exact ih htail
        · exact Except.noConfusion h
      · exact Except.noConfusion h
    · rename_i hlk
      split at h
      · rename_i tail htail
        obtain rfl := Except.ok.inj h
        by_cases hn : name = f.name
        · subst hn
          rw [List.map_cons, lookup_cons_self, lookup_cons_self]
        · rw [List.map_cons, lookup_cons_ne _ _ hn, lookup_cons_ne _ _ hn]
          exact ih htail
      · exact Except.noConfusion h

/-- Every declared field the input does not supply is reported by
`get_config` with its documented default value (the value the field has in
the kind's default configuration). -/
theorem fromConfig_defaults {k : Kind} {t : ConfigTree} {m : Instance}
    (hk : k.wf) (hm : k.fromConfig t = .ok m) {name : String}
    (hns : name ∉ t.map Prod.fst) :
    List.lookup name (m.getConfig false) =
      k.defaultConfig.bind (List.lookup name) := by
  have hts : List.lookup name t = none := lookup_eq_none_of_not_mem hns
  cases k with
  | plain fs =>
    simp only [Kind.fromConfig] at hm
    split at hm
    · rename_i vals hv
      obtain rfl := (Except.ok.inj hm).symm
      unfold fromConfigPlain at hv
      split at hv
      · exact Except.noConfusion hv
      · show List.lookup name vals =
          ((Kind.plain fs).defaultConfig).bind (List.lookup name)
        rw [show (Kind.plain fs).defaultConfig =
          some (fs.map (fun f => (f.name, f.dflt))) from rfl]
        show List.lookup name vals =
          List.lookup name (fs.map (fun f => (f.name, f.dflt)))
        exact buildVals_not_supplied hv hts
    · exact Except.noConfusion hm
  | wrapper w =>
    obtain ⟨mt, sel, path, sg, prms, pre, post, hck, hmt, hcm, hcls, hres, hkt,
      hpt, hfind, hpre, hpost, rfl⟩ := fromConfigWrapper_inv hm
    obtain ⟨hwpre, hwpost, hndall, hndreg, hregkt, hshadow, hdef⟩ := hk
    have hkPre := valsAligned_keys
      (buildVals_aligned (fun f hf => (hwpre.2 f hf).2.1) hpre)
    have hkPost := valsAligned_keys
      (buildVals_aligned (fun f hf => (hwpost.2 f hf).2.1) hpost)
    have hndsplit := List.nodup_append.mp (by
      simpa [wrapperAllowed] using hndall)
    have hmodel_notin_pre : "model" ∉ fieldNames w.preFields := fun hmem =>
      hndsplit.2.2 hmem (List.mem_cons_self _ _)
    obtain ⟨path0, hp0mem, hres0⟩ := hdef
    have hkt0S := resolve_ok_lookup hres0 hregkt
    obtain ⟨sg0, hkt0⟩ := Option.isSome_iff_exists.mp hkt0S
    have hdc : (Kind.wrapper w).defaultConfig = some
        (w.preFields.map (fun f => (f.name, f.dflt)) ++
         ("model", Value.tree
           [("cls", .str (renderCls w.registry path0)), ("params", .tree sg0)]) ::
         w.postFields.map (fun f => (f.name, f.dflt))) := by
      simp only [Kind.defaultConfig]
      split
      · rename_i heq
        rw [heq] at hres0
        exact Except.noConfusion hres0
      · rename_i p' heq
        rw [heq] at hres0
        obtain rfl := Except.ok.inj hres0
        split
        · rename_i heq2
          rw [heq2] at hkt0
          exact Option.noConfusion hkt0
        · rename_i sg' heq2
          rw [heq2] at hkt0
          obtain rfl := Option.some.inj hkt0
          rfl
    rw [hdc]
    show List.lookup name (pre ++ ("model", Value.tree
        [("cls", .str (renderCls w.registry path)),
         ("params", .tree (mergeArgs sg prms))]) :: post) =
      List.lookup name
        (w.preFields.map (fun f => (f.name, f.dflt)) ++
         ("model", Value.tree
           [("cls", .str (renderCls w.registry path0)), ("params", .tree sg0)]) ::
         w.postFields.map (fun f => (f.name, f.dflt)))
    by_cases hname : name = "model"
    · subst hname
      have hmt_eq : mt = [] := by
        unfold getModelTree at hmt
        rw [hts] at hmt
        exact (Except.ok.inj hmt).symm
      subst hmt_eq
      have hsel : sel = w.defaultCls := by
        unfold getCls at hcls
        exact (Except.ok.inj hcls).symm
      subst hsel
      have hpp : path = path0 := by
        rw [hres] at hres0
        exact Except.ok.inj hres0
      subst hpp
      have hsg : sg = sg0 := by
        rw [hkt] at hkt0
        exact Option.some.inj hkt0
      subst hsg
      have hprms : prms = [] := by
        unfold getParamsTree at hpt
        exact (Except.ok.inj hpt).symm
      subst hprms
      rw [mergeArgs_nil]
      rw [lookup_append_right _ (by rw [hkPre]; exact hmodel_notin_pre),
        lookup_cons_self,
        lookup_append_right _ (by rw [defaultsMap_keys]; exact hmodel_notin_pre),
        lookup_cons_self]
    · by_cases hpmem : name ∈ fieldNames w.preFields
      · obtain ⟨v, hv⟩ := Option.isSome_iff_exists.mp
          (lookup_isSome_of_mem (l := pre) (by rw [hkPre]; exact hpmem))
        rw [lookup_append_left _ hv]
        have h2 := buildVals_not_supplied hpre hts
        rw [hv] at h2
        rw [lookup_append_left _ h2.symm]
      · rw [lookup_append_right _ (by rw [hkPre]; exact hpmem),
          lookup_cons_ne _ _ hname,
          lookup_append_right _ (by rw [defaultsMap_keys]; exact hpmem),
          lookup_cons_ne _ _ hname]
        exact buildVals_not_supplied hpost hts

/-! ## The claims -/

/-- C1: for every model kind and every instance successfully constructed by
`from_config`, reconstructing via `from_config(m.get_config())` yields an
instance whose `get_config()` equals `m.get_config()` structurally. -/
theorem from_config_get_config_roundtrip (k : Kind) (t : ConfigTree)
    (m : Instance) (hk : k.wf) (hm : k.fromConfig t = .ok m) :
    (k.fromConfig (m.getConfig false)).map (Instance.getConfig false) =
      .ok (m.getConfig false) := by
  rw [Kind.fromConfig_roundtrip hk hm]
  rfl

/-- Witness for C1: the popularity model configured with
`popularity = "n_interactions"` round-trips. -/
theorem from_config_get_config_roundtrip_witness :
    ∃ m, popularKind.fromConfig [("popularity", Value.str "n_interactions")] =
        .ok m ∧
      (popularKind.fromConfig (m.getConfig false)).map (Instance.getConfig false) =
        .ok (m.getConfig false) := by
  obtain ⟨m, hm⟩ : ∃ m, popularKind.fromConfig
      [("popularity", Value.str "n_interactions")] = .ok m := ⟨_, rfl⟩
  exact ⟨m, hm, from_config_get_config_roundtrip popularKind _ m (by decide) hm⟩

/-- C2: for every model kind, `get_config` of any constructed instance
reports every schema-declared field; a field the construction did not
supply appears with its documented default value (its value in the kind's
default configuration); in particular `from_config({})` succeeds, yielding
exactly the complete default configuration. -/
theorem get_config_default_completeness (k : Kind) (hk : k.wf) :
    (∀ t m, k.fromConfig t = .ok m →
      (m.getConfig false).map Prod.fst = k.declaredNames ∧
      ∀ name, name ∉ t.map Prod.fst →
        List.lookup name (m.getConfig false) =
          k.defaultConfig.bind (List.lookup name)) ∧
    ∃ m, k.fromConfig [] = .ok m ∧
      some (m.getConfig false) = k.defaultConfig ∧
      (m.getConfig false).map Prod.fst = k.declaredNames := by
  refine ⟨fun t m hm => ⟨fromConfig_keys hk hm,
    fun name hns => fromConfig_defaults hk hm hns⟩, ?_⟩
  obtain ⟨m, hm, hd⟩ := fromConfig_empty k hk
  exact ⟨m, hm, hd, fromConfig_keys hk hm⟩

/-- Witness for C2: the popularity model constructed from a partially
supplied config (only `popularity` given) reports the full declared field
set, and the unsupplied `add_cold` field carries its documented default. -/
theorem get_config_default_completeness_witness :
    ∃ m, popularKind.fromConfig [("popularity", Value.str "n_interactions")] =
        .ok m ∧
      (m.getConfig false).map Prod.fst = popularKind.declaredNames ∧
      List.lookup "add_cold" (m.getConfig false) =
        popularKind.defaultConfig.bind (List.lookup "add_cold") := by
  obtain ⟨m, hm⟩ : ∃ m, popularKind.fromConfig
      [("popularity", Value.str "n_interactions")] = .ok m := ⟨_, rfl⟩
  have h := (get_config_default_completeness popularKind (by decide)).1 _ _ hm
  exact ⟨m, hm, h.1, h.2 "add_cold" (by decide)⟩

/-- C3: for every model kind, `from_config` on a tree containing an
unrecognized field name fails with `SchemaValidationError`, producing no
instance at all. -/
theorem unknown_field_schema_validation (k : Kind) (t : ConfigTree)
    (key : String) (v : Value) (hmem : (key, v) ∈ t)
    (hbad : key ∉ k.declaredNames) :
    ∃ bad, k.fromConfig t = .error (.schemaValidation bad) := by
  cases k with
  | plain fs =>
    simp only [Kind.declaredNames] at hbad
    obtain ⟨bad, hb⟩ := checkKeys_error hmem hbad
    refine ⟨bad, ?_⟩
    have hp : fromConfigPlain fs t = .error (.schemaValidation bad) := by
      unfold fromConfigPlain
      rw [hb]
    simp only [Kind.fromConfig, hp]
  | wrapper w =>
    simp only [Kind.declaredNames] at hbad
    obtain ⟨bad, hb⟩ := checkKeys_error hmem hbad
    refine ⟨bad, ?_⟩
    show fromConfigWrapper w t = _
    unfold fromConfigWrapper
    rw [hb]

/-- Witness for C3: `from_config({"not_a_field": 1})` fails for the
popularity kind. -/
theorem unknown_field_schema_validation_witness :
    ∃ bad, popularKind.fromConfig [("not_a_field", Value.int 1)] =
      .error (.schemaValidation bad) :=
  unknown_field_schema_validation popularKind [("not_a_field", Value.int 1)]
    "not_a_field" (Value.int 1) (by decide) (by decide)

/-- C4: the Type Normalizer's simple mode is total (defined on every
representable value) and idempotent, and normalizing an already-simple value
is the identity. -/
theorem normalize_simple_idempotent (v : Value) :
    v.normalizeSimple.normalizeSimple = v.normalizeSimple ∧
    (v.isSimple = true → v.normalizeSimple = v) :=
  ⟨Value.normalizeSimple_idem v, Value.normalizeSimple_of_isSimple v⟩

/-- Witness for C4: idempotence at an enumeration member, and identity at an
already-simple component mapping. -/
theorem normalize_simple_idempotent_witness :
    ((Value.enum "n_interactions").normalizeSimple.normalizeSimple =
      (Value.enum "n_interactions").normalizeSimple) ∧
    ((Value.tree [("days", Value.int 14)]).isSimple = true ∧
      (Value.tree [("days", Value.int 14)]).normalizeSimple =
        Value.tree [("days", Value.int 14)]) :=
  ⟨(normalize_simple_idempotent (Value.enum "n_interactions")).1,
   by decide,
   (normalize_simple_idempotent (Value.tree [("days", Value.int 14)])).2 (by decide)⟩

/-- C6: configuring the ItemKNN wrapper with the TFIDF class selector and
params K=50, num_threads=1 yields simple flat params containing the keys
model.cls, model.params.K and model.params.num_threads with values
"TFIDFRecommender", 50 and 1. -/
theorem wrapper_scenario_b :
    ∃ m, itemKNNKind.fromConfig
      [("model", Value.tree
        [("cls", Value.str "TFIDFRecommender"),
         ("params", Value.tree
           [("K", Value.int 50), ("num_threads", Value.int 1)])])] = .ok m ∧
      ("model.cls", Value.str "TFIDFRecommender") ∈ m.getParams true ∧
      ("model.params.K", Value.int 50) ∈ m.getParams true ∧
      ("model.params.num_threads", Value.int 1) ∈ m.getParams true := by
  refine ⟨_, rfl, ?_, ?_, ?_⟩ <;> decide

/-- C7: configuring the popularity kind with popularity "n_interactions" and
a two-week period yields a native config holding the exact component mapping
days=14 for period, and the simple config holds popularity as the plain
string. -/
theorem popular_scenario_a :
    ∃ m, popularKind.fromConfig
      [("popularity", Value.str "n_interactions"),
       ("period", Value.dur (Duration.ofWeeks 2))] = .ok m ∧
      ("period", Value.tree [("days", Value.int 14)]) ∈ m.getConfig false ∧
      ("popularity", Value.str "n_interactions") ∈ m.getConfig true := by
  refine ⟨_, rfl, ?_, ?_⟩ <;> decide

/-- The class selector a configured wrapper reports under model.cls. -/
def configModelCls (t : ConfigTree) : Option Value :=
  match List.lookup "model" t with
  | some (.tree mt) => List.lookup "cls" mt
  | _ => none

/-- The kind's documented default selector, rendered as the short registry
alias when one exists. -/
def Kind.defaultClsRendered : Kind → Option String
  | .plain _ => none
  | .wrapper w =>
    match resolveSelector w.registry w.defaultCls with
    | .error _ => none
    | .ok path => some (renderCls w.registry path)

/-- The configuration has no `model` key at all, or its `model` sub-tree
omits `cls`. -/
def omitsCls (t : ConfigTree) : Bool :=
  match List.lookup "model" t with
  | some (.tree mt) => (List.lookup "cls" mt).isNone
  | _ => true

/-- Any successful wrapper construction from a configuration that omits
`model.cls` resolves the kind's default selector and reports it (rendered)
under `model.cls`. -/
theorem fromConfigWrapper_default_cls {w : WrapperSpec} {t : ConfigTree}
    {m : Instance} (hw : w.wellformed) (ho : omitsCls t = true)
    (hm : fromConfigWrapper w t = .ok m) :
    ((Kind.wrapper w).defaultClsRendered).isSome = true ∧
    configModelCls (m.getConfig false) =
      ((Kind.wrapper w).defaultClsRendered).map Value.str := by
  obtain ⟨mt, sel, path, sg, prms, pre, post, hck, hmt, hcm, hcls, hres, hkt,
    hpt, hfind, hpre, hpost, rfl⟩ := fromConfigWrapper_inv hm
  obtain ⟨hwpre, _, hndall, _⟩ := hw
  have hclsmt : mt = [] ∨ List.lookup "cls" mt = none := by
    cases hlk : List.lookup "model" t with
    | none =>
      left
      unfold getModelTree at hmt
      rw [hlk] at hmt
      exact (Except.ok.inj hmt).symm
    | some v =>
      cases v with
      | tree mt0 =>
        right
        have hmteq : mt0 = mt := by
          unfold getModelTree at hmt
          rw [hlk] at hmt
          exact Except.ok.inj hmt
        subst hmteq
        unfold omitsCls at ho
        rw [hlk] at ho
        simpa [Option.isNone_iff_eq_none] using ho
      | int n =>
        unfold getModelTree at hmt
        rw [hlk] at hmt
        exact Except.noConfusion hmt
      | float q =>
        unfold getModelTree at hmt
        rw [hlk] at hmt
        exact Except.noConfusion hmt
      | str s =>
        unfold getModelTree at hmt
        rw [hlk] at hmt
        exact Except.noConfusion hmt
      | bool b =>
        unfold getModelTree at hmt
        rw [hlk] at hmt
        exact Except.noConfusion hmt
      | null =>
        unfold getModelTree at hmt
        rw [hlk] at hmt
        exact Except.noConfusion hmt
      | enum s =>
        unfold getModelTree at hmt
        rw [hlk] at hmt
        exact Except.noConfusion hmt
      | dur d =>
        unfold getModelTree at hmt
        rw [hlk] at hmt
        exact Except.noConfusion hmt
  have hsel : sel = w.defaultCls := by
    rcases hclsmt with rfl | hno
    · unfold getCls at hcls
      exact (Except.ok.inj hcls).symm
    · unfold getCls at hcls
      rw [hno] at hcls
      exact (Except.ok.inj hcls).symm
  subst hsel
  have hdr : (Kind.wrapper w).defaultClsRendered =
      some (renderCls w.registry path) := by
    simp only [Kind.defaultClsRendered]
    split
    · rename_i heq
      rw [heq] at hres
      exact Except.noConfusion hres
    · rename_i p' heq
      rw [heq] at hres
      obtain rfl := Except.ok.inj hres
      rfl
  refine ⟨by rw [hdr]; rfl, ?_⟩
  rw [hdr]
  have hkPre := valsAligned_keys
    (buildVals_aligned (fun f hf => (hwpre.2 f hf).2.1) hpre)
  have hndsplit := List.nodup_append.mp (by
    simpa [wrapperAllowed] using hndall)
  have hmodel_notin_pre : "model" ∉ fieldNames w.preFields := fun hmem =>
    hndsplit.2.2 hmem (List.mem_cons_self _ _)
  show configModelCls (pre ++ ("model", Value.tree
      [("cls", .str (renderCls w.registry path)),
       ("params", .tree (mergeArgs sg prms))]) :: post) =
    some (Value.str (renderCls w.registry path))
  unfold configModelCls
  rw [lookup_append_right _ (by rw [hkPre]; exact hmodel_notin_pre),
    lookup_cons_self]
  rfl

/-- C8: for every wrapper kind and every configuration with no model key at
all, or whose model sub-tree omits cls, construction resolves model.cls to
the kind's documented default implementation selector and the resulting
config reports that default rendered as its short registry alias; both
configuration families do construct successfully, and for the ALS wrapper
the alias is "AlternatingLeastSquares". -/
theorem wrapper_default_cls :
    (∀ k ∈ wrapperKinds, ∀ t m, omitsCls t = true → k.fromConfig t = .ok m →
      (k.defaultClsRendered).isSome = true ∧
      configModelCls (m.getConfig false) =
        (k.defaultClsRendered).map Value.str) ∧
    (∀ k ∈ wrapperKinds, (k.fromConfig []).toOption.isSome = true ∧
      (k.fromConfig [("model", Value.tree [])]).toOption.isSome = true) ∧
    alsKind.defaultClsRendered = some "AlternatingLeastSquares" := by
  refine ⟨?_, by decide, by decide⟩
  intro k hk t m ho hm
  have hks : k = itemKNNKind ∨ k = alsKind ∨ k = lightFMKind := by
    simpa [wrapperKinds] using hk
  rcases hks with rfl | rfl | rfl
  · exact fromConfigWrapper_default_cls (by decide) ho hm
  · exact fromConfigWrapper_default_cls (by decide) ho hm
  · exact fromConfigWrapper_default_cls (by decide) ho hm

/-- Witness for C8: the notebook's ALS configuration — inner params and a
wrapper-level field supplied, but no cls — reports the default selector
rendered as "AlternatingLeastSquares". -/
theorem wrapper_default_cls_witness :
    ∃ m, alsKind.fromConfig
        [("model", Value.tree [("params", Value.tree
          [("factors", Value.int 16), ("num_threads", Value.int 2),
           ("iterations", Value.int 2), ("random_state", Value.int 32)])]),
         ("fit_features_together", Value.bool true)] = .ok m ∧
      (alsKind.defaultClsRendered).isSome = true ∧
      configModelCls (m.getConfig false) =
        (alsKind.defaultClsRendered).map Value.str := by
  obtain ⟨m, hm⟩ : ∃ m, alsKind.fromConfig
      [("model", Value.tree [("params", Value.tree
        [("factors", Value.int 16), ("num_threads", Value.int 2),
         ("iterations", Value.int 2), ("random_state", Value.int 32)])]),
       ("fit_features_together", Value.bool true)] = .ok m := ⟨_, rfl⟩
  have h := wrapper_default_cls.1 alsKind (by decide) _ m (by decide) hm
  exact ⟨m, hm, h.1, h.2⟩

/-- C9: the EASE kind coerces a supplied integer to its declared float type —
supplying the integer 100 for regularization yields the float 100.0 in the
simple flat params. -/
theorem ease_numeric_coercion :
    ∃ m, easeKind.fromConfig
      [("regularization", Value.int 100), ("verbose", Value.int 1)] = .ok m ∧
      m.getParams true =
        [("verbose", Value.int 1), ("regularization", Value.float 100),
         ("num_threads", Value.int 1)] := by
  refine ⟨_, rfl, ?_⟩
  decide

mutual

/-- A textual rendering of a value, used by the persisted payload. -/
def Value.render : Value → String
  | .int n => toString n
  | .float q => toString q
  | .str s => s
  | .bool b => toString b
  | .null => "None"
  | .enum s => s
  | .dur d => toString d.days ++ "d" ++ toString d.seconds ++ "s" ++
      toString d.microseconds ++ "us"
  | .tree t => "(" ++ renderTree t ++ ")"
termination_by structural v => v

/-- Textual rendering of a tree, used by the persisted payload. -/
def renderTree : ConfigTree → String
  | [] => ""
  | (k, v) :: rest => k ++ "=" ++ v.render ++ ";" ++ renderTree rest
termination_by structural t => t

end

/-- Modelled from the spec: the persisted payload encodes the instance's full
native configuration as an opaque byte sequence (fitted state is absent
before training and out of the modelled surface). -/
def encodePayload (m : Instance) : List Nat :=
  (renderTree m.getConfigNative).data.map Char.toNat

/-- Modelled from the spec: `save` writes the encoded payload to the target
sink and returns the number of bytes written — the notebook records `save`
returning the integer 220 for a small popularity model. -/
def save (m : Instance) (sink : List Nat) : List Nat × Nat :=
  (sink ++ encodePayload m, (encodePayload m).length)

/-- C10: `save` returns the number of bytes written to the target sink — the
amount by which the sink grew — rather than `None` or the payload itself. -/
theorem save_returns_byte_count (m : Instance) (sink : List Nat) :
    (save m sink).1 = sink ++ encodePayload m ∧
    (save m sink).2 = (save m sink).1.length - sink.length := by
  constructor
  · rfl
  · show (encodePayload m).length = (sink ++ encodePayload m).length - sink.length
    rw [List.length_append]
    omega

/-! ## Flattening: path-level view and round trip -/

mutual

/-- The path-level view of `flatten`: keys as component lists instead of
dot-joined strings. -/
def flatP : ConfigTree → List (List String × Value)
  | [] => []
  | (k, v) :: rest => flatPEntry k v ++ flatP rest
termination_by structural t => t

/-- Path-level flattening of one entry. -/
def flatPEntry (k : String) : Value → List (List String × Value)
  | .tree sub => (flatP sub).map (fun p => (k :: p.1, p.2))
  | v => [([k], v)]
termination_by structural v => v

end

mutual

/-- The leaf values of a tree in depth-first declaration order. -/
def leaves : ConfigTree → List Value
  | [] => []
  | (_, v) :: rest => leafValues v ++ leaves rest
termination_by structural t => t

/-- The leaf values below one value. -/
def leafValues : Value → List Value
  | .tree sub => leaves sub
  | v => [v]
termination_by structural v => v

end

/-- Join path components with the dot separator. -/
def joinParts : List String → String
  | [] => ""
  | [p] => p
  | p :: ps => p ++ "." ++ joinParts ps

theorem splitChars_nodot {cs : List Char} (acc : List Char)
    (h : ∀ c ∈ cs, c ≠ '.') : splitChars cs acc = [acc.reverse ++ cs] := by
  induction cs generalizing acc with
  | nil => simp [splitChars]
  | cons c cs ih =>
    have hc : c ≠ '.' := h c (List.mem_cons_self _ _)
    rw [splitChars, if_neg hc, ih _ (fun d hd => h d (List.mem_cons_of_mem _ hd))]
    simp

theorem splitChars_dot {cs : List Char} (rest acc : List Char)
    (h : ∀ c ∈ cs, c ≠ '.') :
    splitChars (cs ++ '.' :: rest) acc =
      (acc.reverse ++ cs) :: splitChars rest [] := by
  induction cs generalizing acc with
  | nil => simp [splitChars]
  | cons c cs ih =>
    have hc : c ≠ '.' := h c (List.mem_cons_self _ _)
    rw [List.cons_append, splitChars, if_neg hc,
      ih _ (fun d hd => h d (List.mem_cons_of_mem _ hd))]
    simp

theorem goodKey_no_dot {s : String} (h : goodKey s = true) :
    ∀ c ∈ s.data, c ≠ '.' := by
  intro c hc he
  subst he
  simp only [goodKey, Bool.and_eq_true, Bool.not_eq_true'] at h
  have : s.data.contains '.' = true := by
    simpa [List.contains, List.elem_iff] using hc
  rw [this] at h
  exact Bool.noConfusion h.2

theorem splitDots_joinParts {ps : List String} (hne : ps ≠ [])
    (hgood : ∀ p ∈ ps, goodKey p = true) :
    splitDots (joinParts ps) = ps := by
  induction ps with
  | nil => exact absurd rfl hne
  | cons p ps ih =>
    cases ps with
    | nil =>
      show (splitChars p.data []).map (fun cs => String.mk cs) = [p]
      rw [splitChars_nodot []
        (goodKey_no_dot (hgood p (List.mem_cons_self _ _)))]
      simp
    | cons q qs =>
      have hdata : (joinParts (p :: q :: qs)).data =
          p.data ++ '.' :: (joinParts (q :: qs)).data := by
        show (p ++ "." ++ joinParts (q :: qs)).data = _
        rw [String.data_append, String.data_append]
        simp
      show ((splitChars (joinParts (p :: q :: qs)).data []).map
        (fun cs => String.mk cs)) = p :: q :: qs
      rw [hdata, splitChars_dot _ _
        (goodKey_no_dot (hgood p (List.mem_cons_self _ _)))]
      simp only [List.map_cons, List.reverse_nil, List.nil_append]
      rw [show (String.mk p.data) = p from rfl]
      have := ih (by simp) (fun r hr => hgood r (List.mem_cons_of_mem _ hr))
      rw [show (splitChars (joinParts (q :: qs)).data []).map
        (fun cs => String.mk cs) = splitDots (joinParts (q :: qs)) from rfl, this]

theorem flatPEntry_parts (k : String) (v : Value) :
    ∀ e ∈ flatPEntry k v, ∃ ps, e.1 = k :: ps := by
  intro e he
  cases v with
  | tree sub =>
    simp only [flatPEntry, List.mem_map] at he
    obtain ⟨p, _, rfl⟩ := he
    exact ⟨p.1, rfl⟩
  | _ =>
    simp only [flatPEntry, List.mem_singleton] at he
    subst he
    exact ⟨[], rfl⟩

theorem flatP_parts_ne_nil : ∀ (t : ConfigTree), ∀ e ∈ flatP t, e.1 ≠ [] := by
  intro t e he
  induction t with
  | nil => simp [flatP] at he
  | cons p rest ih =>
    obtain ⟨k, v⟩ := p
    rw [flatP, List.mem_append] at he
    rcases he with he | he
    · obtain ⟨ps, hps⟩ := flatPEntry_parts k v e he
      simp [hps]
    · exact ih he

theorem flatP_heads : ∀ (t : ConfigTree), ∀ e ∈ flatP t,
    ∃ k ps, e.1 = k :: ps ∧ k ∈ t.map Prod.fst := by
  intro t e he
  induction t with
  | nil => simp [flatP] at he
  | cons p rest ih =>
    obtain ⟨k, v⟩ := p
    rw [flatP, List.mem_append] at he
    rcases he with he | he
    · obtain ⟨ps, hps⟩ := flatPEntry_parts k v e he
      exact ⟨k, ps, hps, by simp⟩
    · obtain ⟨k', ps, hps, hmem⟩ := ih he
      exact ⟨k', ps, hps, List.mem_cons_of_mem _ hmem⟩

theorem joinParts_cons (k : String) (ps : List String) (hne : ps ≠ []) :
    joinParts (k :: ps) = k ++ "." ++ joinParts ps := by
  cases ps with
  | nil => exact absurd rfl hne
  | cons q qs => rfl

mutual

theorem flatten_eq_join (t : ConfigTree) :
    flatten t = (flatP t).map (fun e => (joinParts e.1, e.2)) := by
  cases t with
  | nil => rfl
  | cons p rest =>
    obtain ⟨k, v⟩ := p
    rw [flatten, flatP, List.map_append, flattenEntry_eq_join k v,
      flatten_eq_join rest]

theorem flattenEntry_eq_join (k : String) (v : Value) :
    flattenEntry k v = (flatPEntry k v).map (fun e => (joinParts e.1, e.2)) := by
  cases v with
  | tree sub =>
    rw [flattenEntry, flatPEntry, flatten_eq_join sub, List.map_map,
      List.map_map]
    refine List.map_congr_left ?_
    intro e he
    have hne := flatP_parts_ne_nil sub e he
    show (k ++ "." ++ joinParts e.1, e.2) = (joinParts (k :: e.1), e.2)
    rw [joinParts_cons k e.1 hne]
  | int n => rfl
  | float q => rfl
  | str s => rfl
  | bool b => rfl
  | null => rfl
  | enum s => rfl
  | dur d => rfl

end

mutual

theorem flatten_map_snd (t : ConfigTree) :
    (flatten t).map Prod.snd = leaves t := by
  cases t with
  | nil => rfl
  | cons p rest =>
    obtain ⟨k, v⟩ := p
    rw [flatten, leaves, List.map_append, flattenEntry_map_snd k v,
      flatten_map_snd rest]

theorem flattenEntry_map_snd (k : String) (v : Value) :
    (flattenEntry k v).map Prod.snd = leafValues v := by
  cases v with
  | tree sub =>
    rw [flattenEntry, leafValues, ← flatten_map_snd sub, List.map_map]
    rfl
  | int n => rfl
  | float q => rfl
  | str s => rfl
  | bool b => rfl
  | null => rfl
  | enum s => rfl
  | dur d => rfl

end

theorem wfTree_cons_elim {k : String} {v : Value} {rest : ConfigTree}
    (h : wfTree ((k, v) :: rest) = true) :
    goodKey k = true ∧ rest.any (fun e => e.1 == k) = false ∧
      v.wfVal = true ∧ wfTree rest = true := by
  have h' := h
  rw [wfTree] at h'
  simp only [Bool.and_eq_true, Bool.not_eq_true'] at h'
  exact ⟨h'.1.1.1, h'.1.1.2, h'.1.2, h'.2⟩

theorem wfVal_tree_elim {sub : ConfigTree}
    (h : (Value.tree sub).wfVal = true) : sub ≠ [] ∧ wfTree sub = true := by
  have h' := h
  rw [Value.wfVal] at h'
  simp only [Bool.and_eq_true, Bool.not_eq_true'] at h'
  refine ⟨?_, h'.2⟩
  intro he
  subst he
  simp at h'

mutual

theorem flatP_parts_good {t : ConfigTree} (ht : wfTree t = true) :
    ∀ e ∈ flatP t, ∀ s ∈ e.1, goodKey s = true := by
  intro e he s hs
  cases t with
  | nil => simp [flatP] at he
  | cons p rest =>
    obtain ⟨k, v⟩ := p
    obtain ⟨hgood, _, hv, hrest⟩ := wfTree_cons_elim ht
    rw [flatP, List.mem_append] at he
    rcases he with he | he
    · exact flatPEntry_parts_good hgood hv e he s hs
    · exact flatP_parts_good hrest e he s hs

theorem flatPEntry_parts_good {k : String} {v : Value} (hk : goodKey k = true)
    (hv : v.wfVal = true) :
    ∀ e ∈ flatPEntry k v, ∀ s ∈ e.1, goodKey s = true := by
  intro e he s hs
  cases v with
  | tree sub =>
    obtain ⟨_, hsub⟩ := wfVal_tree_elim hv
    simp only [flatPEntry, List.mem_map] at he
    obtain ⟨p, hp, rfl⟩ := he
    rcases List.mem_cons.mp hs with hs | hs
    · exact hs ▸ hk
    · exact flatP_parts_good hsub p hp s hs
  | _ =>
    simp only [flatPEntry, List.mem_singleton] at he
    subst he
    rcases List.mem_cons.mp hs with hs | hs
    · exact hs ▸ hk
    · simp at hs

end

mutual

theorem flatP_ne_nil {t : ConfigTree} (ht : wfTree t = true) (hne : t ≠ []) :
    flatP t ≠ [] := by
  cases t with
  | nil => exact absurd rfl hne
  | cons p rest =>
    obtain ⟨k, v⟩ := p
    obtain ⟨hgood, _, hv, hrest⟩ := wfTree_cons_elim ht
    rw [flatP]
    intro hcontra
    rw [List.append_eq_nil] at hcontra
    exact flatPEntry_ne_nil hv hcontra.1

theorem flatPEntry_ne_nil {k : String} {v : Value} (hv : v.wfVal = true) :
    flatPEntry k v ≠ [] := by
  cases v with
  | tree sub =>
    obtain ⟨hsub_ne, hsub⟩ := wfVal_tree_elim hv
    rw [flatPEntry]
    intro hcontra
    rw [List.map_eq_nil_iff] at hcontra
    exact flatP_ne_nil hsub hsub_ne hcontra
  | int n => simp [flatPEntry]
  | float q => simp [flatPEntry]
  | str s => simp [flatPEntry]
  | bool b => simp [flatPEntry]
  | null => simp [flatPEntry]
  | enum s => simp [flatPEntry]
  | dur d => simp [flatPEntry]

end

mutual

theorem flatP_parts_nodup {t : ConfigTree} (ht : wfTree t = true) :
    ((flatP t).map Prod.fst).Nodup := by
  cases t with
  | nil => simp [flatP]
  | cons p rest =>
    obtain ⟨k, v⟩ := p
    obtain ⟨hgood, hnotin, hv, hrest⟩ := wfTree_cons_elim ht
    rw [flatP, List.map_append, List.nodup_append]
    refine ⟨flatPEntry_parts_nodup hv, flatP_parts_nodup hrest, ?_⟩
    intro a haA haB
    obtain ⟨eA, heA, rfl⟩ := List.mem_map.mp haA
    obtain ⟨ps, hps⟩ := flatPEntry_parts k v eA heA
    obtain ⟨eB, heB, heBfst⟩ := List.mem_map.mp haB
    obtain ⟨k', ps', hps', hk'mem⟩ := flatP_heads rest eB heB
    have hkne : k' ≠ k := by
      intro he
      subst he
      have : rest.any (fun e => e.1 == k') = true := by
        rw [List.any_eq_true]
        obtain ⟨q, hq, hqfst⟩ := List.mem_map.mp hk'mem
        exact ⟨q, hq, by simp [hqfst]⟩
      rw [this] at hnotin
      exact Bool.noConfusion hnotin
    rw [hps] at heBfst
    rw [hps'] at heBfst
    exact hkne (List.head_eq_of_cons_eq heBfst.symm).symm

theorem flatPEntry_parts_nodup {k : String} {v : Value} (hv : v.wfVal = true) :
    ((flatPEntry k v).map Prod.fst).Nodup := by
  cases v with
  | tree sub =>
    obtain ⟨_, hsub⟩ := wfVal_tree_elim hv
    rw [flatPEntry, List.map_map]
    have : ((flatP sub).map (fun p => (k :: p.1, p.2))).map Prod.fst =
        ((flatP sub).map Prod.fst).map (fun ps => k :: ps) := by
      rw [List.map_map, List.map_map]
      rfl
    rw [← List.map_map]
    rw [this]
    exact (flatP_parts_nodup hsub).map (fun a b => by simp)
  | int n => simp [flatPEntry]
  | float q => simp [flatPEntry]
  | str s => simp [flatPEntry]
  | bool b => simp [flatPEntry]
  | null => simp [flatPEntry]
  | enum s => simp [flatPEntry]
  | dur d => simp [flatPEntry]

end

/-! ## Insertion rebuilds the tree -/

theorem foldl_insert_under (k : String) (acc : ConfigTree)
    (hacc : acc.any (fun q => q.1 == k) = false) :
    ∀ (es : List (List String × Value)), (∀ e ∈ es, e.1 ≠ []) →
    ∀ s : ConfigTree,
      List.foldl (fun u e => insertPath u e.1 e.2) (acc ++ [(k, Value.tree s)])
        (es.map (fun e => (k :: e.1, e.2))) =
      acc ++ [(k, Value.tree (List.foldl (fun u e => insertPath u e.1 e.2) s es))] := by
  intro es
  induction es with
  | nil => intro _ s; rfl
  | cons e es ih =>
    intro hne s
    obtain ⟨ps, v⟩ := e
    cases ps with
    | nil =>
      exact (hne ([], v) (List.mem_cons_self _ _) rfl).elim
    | cons p ps' =>
      rw [List.map_cons, List.foldl_cons]
      have hstep : insertPath (acc ++ [(k, Value.tree s)]) (k :: p :: ps') v =
          acc ++ [(k, Value.tree (insertPath s (p :: ps') v))] := by
        rw [insertPath, if_pos (by rw [List.any_append]; simp)]
        rw [List.map_append]
        congr 1
        · have hpt : ∀ q ∈ acc, (q.1 == k) = false := by
            intro q hq
            have := List.any_eq_false.mp hacc q hq
            simpa using this
          rw [List.map_congr_left (fun q hq => if_neg (by
            rw [hpt q hq]; simp))]
          exact List.map_id _
        · simp
      rw [hstep, ih (fun e' he' => hne e' (List.mem_cons_of_mem _ he'))
        (insertPath s (p :: ps') v)]
      rfl

mutual

theorem foldl_insert_flatP (t : ConfigTree) (ht : wfTree t = true)
    (acc : ConfigTree)
    (hacc : ∀ k ∈ t.map Prod.fst, acc.any (fun q => q.1 == k) = false) :
    List.foldl (fun u e => insertPath u e.1 e.2) acc (flatP t) = acc ++ t := by
  cases t with
  | nil => simp [flatP]
  | cons hd rest =>
    obtain ⟨k, v⟩ := hd
    obtain ⟨hgood, hnotin, hv, hrest⟩ := wfTree_cons_elim ht
    have hacck : acc.any (fun q => q.1 == k) = false := hacc k (by simp)
    have haccr : ∀ k' ∈ rest.map Prod.fst,
        ((acc ++ [(k, v)]).any (fun q => q.1 == k')) = false := by
      intro k' hk'
      rw [List.any_append, hacc k' (List.mem_cons_of_mem _ hk'), Bool.false_or]
      simp only [List.any_cons, List.any_nil, Bool.or_false]
      rw [beq_eq_false_iff_ne]
      intro he
      have hcontra : rest.any (fun e => e.1 == k) = true := by
        rw [List.any_eq_true]
        obtain ⟨q, hq, hfst⟩ := List.mem_map.mp hk'
        exact ⟨q, hq, by simp [hfst, he]⟩
      rw [hcontra] at hnotin
      exact Bool.noConfusion hnotin
    rw [flatP, List.foldl_append, foldl_insert_entry k v hv acc hacck,
      foldl_insert_flatP rest hrest (acc ++ [(k, v)]) haccr]
    simp
termination_by structural t

theorem foldl_insert_entry (k : String) (v : Value) (hv : v.wfVal = true)
    (acc : ConfigTree) (hacck : acc.any (fun q => q.1 == k) = false) :
    List.foldl (fun u e => insertPath u e.1 e.2) acc (flatPEntry k v) =
      acc ++ [(k, v)] := by
  cases v with
  | tree sub =>
    obtain ⟨hsubne, hsub⟩ := wfVal_tree_elim hv
    obtain ⟨e0, es, hes⟩ : ∃ e0 es, flatP sub = e0 :: es := by
      cases hfp : flatP sub with
      | nil => exact absurd hfp (flatP_ne_nil hsub hsubne)
      | cons a b => exact ⟨a, b, rfl⟩
    obtain ⟨p, ps', hp⟩ : ∃ p ps', e0.1 = p :: ps' := by
      have h0 := flatP_parts_ne_nil sub e0 (by rw [hes]; exact List.mem_cons_self _ _)
      cases hq : e0.1 with
      | nil => exact absurd hq h0
      | cons a b => exact ⟨a, b, rfl⟩
    rw [flatPEntry, hes, List.map_cons, List.foldl_cons, hp]
    have hfirst : insertPath acc (k :: p :: ps') e0.2 =
        acc ++ [(k, Value.tree (insertPath [] (p :: ps') e0.2))] := by
      rw [insertPath, if_neg (by rw [hacck]; simp)]
    rw [hfirst, foldl_insert_under k acc hacck es
      (fun e' he' => flatP_parts_ne_nil sub e'
        (by rw [hes]; exact List.mem_cons_of_mem _ he'))
      (insertPath [] (p :: ps') e0.2)]
    have hinner : List.foldl (fun u e => insertPath u e.1 e.2)
        (insertPath [] (p :: ps') e0.2) es = sub := by
      have hs := foldl_insert_flatP sub hsub [] (by simp)
      rw [hes, List.foldl_cons, hp] at hs
      simpa using hs
    rw [hinner]
  | int n => rfl
  | float q => rfl
  | str s => rfl
  | bool b => rfl
  | null => rfl
  | enum s => rfl
  | dur d => rfl
termination_by structural v

end

theorem foldl_congr_mem {α β : Type} {f g : β → α → β} {l : List α}
    (h : ∀ b : β, ∀ a ∈ l, f b a = g b a) :
    ∀ b, List.foldl f b l = List.foldl g b l := by
  induction l with
  | nil => intro _; rfl
  | cons a l ih =>
    intro b
    rw [List.foldl_cons, List.foldl_cons, h b a (List.mem_cons_self _ _)]
    exact ih (fun b' a' ha' => h b' a' (List.mem_cons_of_mem _ ha')) _

theorem unflatten_flatten {t : ConfigTree} (ht : wfTree t = true) :
    unflatten (flatten t) = t := by
  unfold unflatten
  rw [flatten_eq_join t, List.foldl_map]
  have hcong : ∀ (b : ConfigTree), ∀ e ∈ flatP t,
      insertPath b (splitDots (joinParts e.1)) e.2 = insertPath b e.1 e.2 := by
    intro b e he
    rw [splitDots_joinParts (flatP_parts_ne_nil t e he)
      (fun s hs => flatP_parts_good ht e he s hs)]
  rw [foldl_congr_mem hcong []]
  simpa using foldl_insert_flatP t ht [] (by simp)

theorem flatten_keys_nodup {t : ConfigTree} (ht : wfTree t = true) :
    ((flatten t).map Prod.fst).Nodup := by
  rw [flatten_eq_join t, List.map_map]
  rw [show (Prod.fst ∘ fun e : List String × Value => (joinParts e.1, e.2)) =
    (joinParts ∘ Prod.fst) from rfl]
  rw [← List.map_map]
  refine List.Nodup.map_on ?_ (flatP_parts_nodup ht)
  intro x hx y hy hxy
  obtain ⟨ex, hex, rfl⟩ := List.mem_map.mp hx
  obtain ⟨ey, hey, rfl⟩ := List.mem_map.mp hy
  calc ex.1 = splitDots (joinParts ex.1) :=
        (splitDots_joinParts (flatP_parts_ne_nil t ex hex)
          (fun s hs => flatP_parts_good ht ex hex s hs)).symm
    _ = splitDots (joinParts ey.1) := by rw [hxy]
    _ = ey.1 := splitDots_joinParts (flatP_parts_ne_nil t ey hey)
          (fun s hs => flatP_parts_good ht ey hey s hs)

/-! ## Wellformedness of emitted configurations -/

theorem wfTree_durTree (d : Duration) : wfTree (durTree d) = true := by
  unfold durTree durTreeRaw
  split_ifs <;> rfl

theorem durTree_ne_nil (d : Duration) : durTree d ≠ [] := by
  unfold durTree durTreeRaw
  split_ifs <;> simp_all

theorem wfVal_durTree (d : Duration) : (Value.tree (durTree d)).wfVal = true := by
  simp [Value.wfVal, wfTree_durTree, List.isEmpty_iff, durTree_ne_nil d]

theorem lookup_wfVal {t : ConfigTree} {a : String} {v : Value}
    (ht : wfTree t = true) (h : List.lookup a t = some v) : v.wfVal = true := by
  induction t with
  | nil => simp [List.lookup] at h
  | cons p rest ih =>
    obtain ⟨k, w⟩ := p
    obtain ⟨_, _, hw, hrest⟩ := wfTree_cons_elim ht
    by_cases hk : a = k
    · subst hk
      rw [lookup_cons_self] at h
      obtain rfl := Option.some.inj h
      exact hw
    · rw [lookup_cons_ne _ _ hk] at h
      exact ih hrest h

theorem wfTree_values {t : ConfigTree} (ht : wfTree t = true) :
    ∀ p ∈ t, p.2.wfVal = true := by
  induction t with
  | nil => simp
  | cons p rest ih =>
    obtain ⟨k, w⟩ := p
    obtain ⟨_, _, hw, hrest⟩ := wfTree_cons_elim ht
    intro q hq
    rcases List.mem_cons.mp hq with hq | hq
    · subst hq; exact hw
    · exact ih hrest q hq

theorem wfTree_keys_good {t : ConfigTree} (ht : wfTree t = true) :
    ∀ p ∈ t, goodKey p.1 = true := by
  induction t with
  | nil => simp
  | cons p rest ih =>
    obtain ⟨k, w⟩ := p
    obtain ⟨hg, _, _, hrest⟩ := wfTree_cons_elim ht
    intro q hq
    rcases List.mem_cons.mp hq with hq | hq
    · subst hq; exact hg
    · exact ih hrest q hq

theorem wfTree_of_parts {vs : ConfigTree} (hnd : (vs.map Prod.fst).Nodup)
    (hgood : ∀ p ∈ vs, goodKey p.1 = true)
    (hv : ∀ p ∈ vs, p.2.wfVal = true) : wfTree vs = true := by
  induction vs with
  | nil => rfl
  | cons p rest ih =>
    obtain ⟨k, w⟩ := p
    rw [List.map_cons, List.nodup_cons] at hnd
    rw [wfTree]
    simp only [Bool.and_eq_true, Bool.not_eq_true']
    refine ⟨⟨⟨hgood _ (List.mem_cons_self _ _), ?_⟩,
      hv _ (List.mem_cons_self _ _)⟩,
      ih hnd.2 (fun q hq => hgood q (List.mem_cons_of_mem _ hq))
        (fun q hq => hv q (List.mem_cons_of_mem _ hq))⟩
    rw [List.any_eq_false]
    intro q hq
    simp only [Bool.not_eq_true]
    rw [beq_eq_false_iff_ne]
    intro he
    refine hnd.1 ?_
    have hmm : q.1 ∈ rest.map Prod.fst := List.mem_map_of_mem Prod.fst hq
    rwa [he] at hmm

theorem coerceValue_wfVal {ty : FieldType} {v w : Value} (hv : v.wfVal = true)
    (h : coerceValue ty v = some w) : w.wfVal = true := by
  induction ty generalizing v w with
  | tInt =>
    cases v <;> simp only [coerceValue] at h <;> try exact Option.noConfusion h
    obtain rfl := Option.some.inj h
    rfl
  | tFloat =>
    cases v <;> simp only [coerceValue] at h <;> try exact Option.noConfusion h
    all_goals
      obtain rfl := Option.some.inj h
      rfl
  | tStr =>
    cases v <;> simp only [coerceValue] at h <;> try exact Option.noConfusion h
    obtain rfl := Option.some.inj h
    rfl
  | tBool =>
    cases v <;> simp only [coerceValue] at h <;> try exact Option.noConfusion h
    obtain rfl := Option.some.inj h
    rfl
  | tEnum allowed =>
    cases v <;> simp only [coerceValue] at h <;> try exact Option.noConfusion h
    all_goals
      rename_i s
      by_cases hs : s ∈ allowed
      · rw [if_pos hs] at h
        obtain rfl := Option.some.inj h
        rfl
      · rw [if_neg hs] at h
        exact Option.noConfusion h
  | tDuration =>
    cases v <;> simp only [coerceValue] at h <;> try exact Option.noConfusion h
    · rename_i d
      obtain rfl := Option.some.inj h
      exact wfVal_durTree d
    · rename_i u
      by_cases hdt : isDurComponents u = true
      · rw [if_pos hdt] at h
        obtain rfl := Option.some.inj h
        exact hv
      · rw [if_neg hdt] at h
        exact Option.noConfusion h
  | tOpt base ih =>
    cases v with
    | null =>
      simp only [coerceValue] at h
      obtain rfl := Option.some.inj h
      rfl
    | int n => exact ih hv (show coerceValue base (.int n) = some w from h)
    | float q => exact ih hv (show coerceValue base (.float q) = some w from h)
    | str s => exact ih hv (show coerceValue base (.str s) = some w from h)
    | bool b => exact ih hv (show coerceValue base (.bool b) = some w from h)
    | enum s => exact ih hv (show coerceValue base (.enum s) = some w from h)
    | dur d => exact ih hv (show coerceValue base (.dur d) = some w from h)
    | tree u => exact ih hv (show coerceValue base (.tree u) = some w from h)

theorem buildVals_wfVals {fs : List Field} {t vs : ConfigTree}
    (ht : wfTree t = true) (hd : ∀ f ∈ fs, f.dflt.wfVal = true)
    (h : buildVals fs t = .ok vs) : ∀ p ∈ vs, p.2.wfVal = true := by
  induction fs generalizing vs with
  | nil =>
    simp only [buildVals] at h
    obtain rfl := Except.ok.inj h
    simp
  | cons f fs ih =>
    simp only [buildVals] at h
    split at h
    · rename_i raw hlk
      split at h
      · rename_i v hco
        split at h
        · rename_i tail htail
          obtain rfl := Except.ok.inj h
          intro p hp
          rcases List.mem_cons.mp hp with hp | hp
          · subst hp
            exact coerceValue_wfVal (lookup_wfVal ht hlk) hco
          · exact ih (fun g hg => hd g (List.mem_cons_of_mem _ hg)) htail p hp
        · exact Except.noConfusion h
      · exact Except.noConfusion h
    · rename_i hlk
      split at h
      · rename_i tail htail
        obtain rfl := Except.ok.inj h
        intro p hp
        rcases List.mem_cons.mp hp with hp | hp
        · subst hp
          exact hd f (List.mem_cons_self _ _)
        · exact ih (fun g hg => hd g (List.mem_cons_of_mem _ hg)) htail p hp
      · exact Except.noConfusion h

theorem normTree_map_fst (t : ConfigTree) :
    (normTree t).map Prod.fst = t.map Prod.fst := by
  induction t with
  | nil => rfl
  | cons p rest ih =>
    obtain ⟨k, v⟩ := p
    simp [normTree, ih]

theorem normTree_ne_nil {t : ConfigTree} (h : t ≠ []) : normTree t ≠ [] := by
  cases t with
  | nil => exact absurd rfl h
  | cons p rest =>
    obtain ⟨k, v⟩ := p
    simp [normTree]

theorem any_key (l : ConfigTree) (k : String) :
    l.any (fun e => e.1 == k) = (l.map Prod.fst).any (fun s => s == k) := by
  induction l with
  | nil => rfl
  | cons p rest ih => simp [List.any_cons, ih]

mutual

theorem wfVal_normalizeSimple {v : Value} (hv : v.wfVal = true) :
    v.normalizeSimple.wfVal = true := by
  cases v with
  | tree sub =>
    obtain ⟨hne, hsub⟩ := wfVal_tree_elim hv
    show (Value.tree (normTree sub)).wfVal = true
    rw [Value.wfVal]
    simp only [Bool.and_eq_true, Bool.not_eq_true']
    refine ⟨?_, wfTree_normTree hsub⟩
    simp [List.isEmpty_iff, normTree_ne_nil hne]
  | dur d => exact wfVal_durTree d
  | int n => rfl
  | float q => rfl
  | str s => rfl
  | bool b => rfl
  | null => rfl
  | enum s => rfl
termination_by structural v

theorem wfTree_normTree {t : ConfigTree} (ht : wfTree t = true) :
    wfTree (normTree t) = true := by
  cases t with
  | nil => rfl
  | cons p rest =>
    obtain ⟨k, v⟩ := p
    obtain ⟨hg, hnotin, hv, hrest⟩ := wfTree_cons_elim ht
    show wfTree ((k, v.normalizeSimple) :: normTree rest) = true
    rw [wfTree]
    simp only [Bool.and_eq_true, Bool.not_eq_true']
    refine ⟨⟨⟨hg, ?_⟩, wfVal_normalizeSimple hv⟩, wfTree_normTree hrest⟩
    rw [any_key, normTree_map_fst, ← any_key, hnotin]
termination_by structural t

end

theorem getConfigNative_wf {k : Kind} {t : ConfigTree} {m : Instance}
    (hk : k.wf) (ht : wfTree t = true) (hm : k.fromConfig t = .ok m) :
    wfTree m.getConfigNative = true := by
  cases k with
  | plain fs =>
    simp only [Kind.fromConfig] at hm
    split at hm
    · rename_i vals hv
      obtain rfl := (Except.ok.inj hm).symm
      show wfTree vals = true
      unfold fromConfigPlain at hv
      split at hv
      · exact Except.noConfusion hv
      · have hkeys := valsAligned_keys
          (buildVals_aligned (fun f hf => (hk.2 f hf).2.1) hv)
        refine wfTree_of_parts ?_ ?_
          (buildVals_wfVals ht (fun f hf => (hk.2 f hf).2.2) hv)
        · rw [hkeys]
          exact hk.1
        · intro p hp
          have hmem : p.1 ∈ fieldNames fs := by
            rw [← hkeys]
            exact List.mem_map_of_mem _ hp
          obtain ⟨f, hf, hfn⟩ := List.mem_map.mp hmem
          rw [← hfn]
          exact (hk.2 f hf).1
    · exact Except.noConfusion hm
  | wrapper w =>
    obtain ⟨mt, sel, path, sg, prms, pre, post, hck, hmt, hcm, hcls, hres, hkt,
      hpt, hfind, hpre, hpost, rfl⟩ := fromConfigWrapper_inv hm
    obtain ⟨hwpre, hwpost, hndall, _⟩ := hk
    have hmtwf : wfTree mt = true := by
      unfold getModelTree at hmt
      split at hmt
      · rename_i hlk
        obtain rfl := Except.ok.inj hmt
        exact (wfVal_tree_elim (lookup_wfVal ht hlk)).2
      · exact Except.noConfusion hmt
      · obtain rfl := Except.ok.inj hmt
        rfl
    have hprmswf : wfTree prms = true := by
      unfold getParamsTree at hpt
      split at hpt
      · rename_i hlk
        obtain rfl := Except.ok.inj hpt
        exact (wfVal_tree_elim (lookup_wfVal hmtwf hlk)).2
      · obtain rfl := Except.ok.inj hpt
        rfl
      · exact Except.noConfusion hpt
    have hsgne := (knownTypes_wf _ (mem_of_lookup_eq_some hkt)).1
    have hsgwf := (knownTypes_wf _ (mem_of_lookup_eq_some hkt)).2
    have hkPre := valsAligned_keys
      (buildVals_aligned (fun f hf => (hwpre.2 f hf).2.1) hpre)
    have hkPost := valsAligned_keys
      (buildVals_aligned (fun f hf => (hwpost.2 f hf).2.1) hpost)
    show wfTree (pre ++ ("model", Value.tree
      [("cls", .str (renderCls w.registry path)),
       ("params", .tree (mergeArgs sg prms))]) :: post) = true
    refine wfTree_of_parts ?_ ?_ ?_
    · rw [List.map_append, List.map_cons, hkPre, hkPost]
      exact hndall
    · intro p hp
      rcases List.mem_append.mp hp with hp | hp
      · have hmem : p.1 ∈ fieldNames w.preFields := by
          rw [← hkPre]
          exact List.mem_map_of_mem _ hp
        obtain ⟨f, hf, hfn⟩ := List.mem_map.mp hmem
        rw [← hfn]
        exact (hwpre.2 f hf).1
      · rcases List.mem_cons.mp hp with hp | hp
        · subst hp
          exact (by decide : goodKey "model" = true)
        · have hmem : p.1 ∈ fieldNames w.postFields := by
            rw [← hkPost]
            exact List.mem_map_of_mem _ hp
          obtain ⟨f, hf, hfn⟩ := List.mem_map.mp hmem
          rw [← hfn]
          exact (hwpost.2 f hf).1
    · intro p hp
      rcases List.mem_append.mp hp with hp | hp
      · exact buildVals_wfVals ht (fun f hf => (hwpre.2 f hf).2.2) hpre p hp
      · rcases List.mem_cons.mp hp with hp | hp
        · subst hp
          show (Value.tree _).wfVal = true
          rw [Value.wfVal]
          simp only [Bool.and_eq_true, Bool.not_eq_true']
          refine ⟨by simp, ?_⟩
          refine wfTree_of_parts (by simp) ?_ ?_
          · intro q hq
            rcases List.mem_cons.mp hq with hq | hq
            · subst hq
              exact (by decide : goodKey "cls" = true)
            · rcases List.mem_cons.mp hq with hq | hq
              · subst hq
                exact (by decide : goodKey "params" = true)
              · simp at hq
          · intro q hq
            rcases List.mem_cons.mp hq with hq | hq
            · subst hq; rfl
            · rcases List.mem_cons.mp hq with hq | hq
              · subst hq
                show (Value.tree (mergeArgs sg prms)).wfVal = true
                rw [Value.wfVal]
                simp only [Bool.and_eq_true, Bool.not_eq_true']
                constructor
                · have hne : mergeArgs sg prms ≠ [] := by
                    unfold mergeArgs
                    rw [Ne, List.map_eq_nil_iff]
                    exact hsgne
                  simp [List.isEmpty_iff, hne]
                · refine wfTree_of_parts ?_ ?_ ?_
                  · rw [mergeArgs_map_fst]
                    exact wfTree_nodup_keys hsgwf
                  · intro q hq
                    unfold mergeArgs at hq
                    obtain ⟨sp, hsp, rfl⟩ := List.mem_map.mp hq
                    exact wfTree_keys_good hsgwf sp hsp
                  · intro q hq
                    unfold mergeArgs at hq
                    obtain ⟨sp, hsp, rfl⟩ := List.mem_map.mp hq
                    show ((List.lookup sp.1 prms).getD sp.2).wfVal = true
                    cases hlk : List.lookup sp.1 prms with
                    | some pv =>
                      rw [Option.getD_some]
                      exact lookup_wfVal hprmswf hlk
                    | none =>
                      rw [Option.getD_none]
                      exact wfTree_values hsgwf sp hsp
              · simp at hq
        · exact buildVals_wfVals ht (fun f hf => (hwpost.2 f hf).2.2) hpost p hp

theorem getConfig_wf {k : Kind} {t : ConfigTree} {m : Instance} (hk : k.wf)
    (ht : wfTree t = true) (hm : k.fromConfig t = .ok m) (simple : Bool) :
    wfTree (m.getConfig simple) = true := by
  cases simple
  · exact getConfigNative_wf hk ht hm
  · show wfTree (normTree m.getConfigNative) = true
    exact wfTree_normTree (getConfigNative_wf hk ht hm)

/-- C5: for every ConfigTree produced by `to_config` (from a wellformed kind
and wellformed input), `unflatten(flatten(t)) == t`; flattening joins nested
keys with the dot separator, every leaf value appears exactly once under a
unique joined key, and the flat output enumerates the leaves in depth-first
declaration order. -/
theorem flatten_unflatten_inverse (k : Kind) (t : ConfigTree) (m : Instance)
    (simple : Bool) (hk : k.wf) (ht : wfTree t = true)
    (hm : k.fromConfig t = .ok m) :
    unflatten (flatten (m.getConfig simple)) = m.getConfig simple ∧
    ((flatten (m.getConfig simple)).map Prod.fst).Nodup ∧
    (flatten (m.getConfig simple)).map Prod.snd = leaves (m.getConfig simple) := by
  have hwf := getConfig_wf hk ht hm simple
  exact ⟨unflatten_flatten hwf, flatten_keys_nodup hwf, flatten_map_snd _⟩

/-- Witness for C5: the configured popularity model's simple config, with its
nested period mapping, flattens and unflattens back to itself with distinct
dotted keys. -/
theorem flatten_unflatten_inverse_witness :
    ∃ m, popularKind.fromConfig
        [("popularity", Value.str "n_interactions"),
         ("period", Value.dur (Duration.ofWeeks 2))] = .ok m ∧
      unflatten (flatten (m.getConfig true)) = m.getConfig true ∧
      ((flatten (m.getConfig true)).map Prod.fst).Nodup := by
  obtain ⟨m, hm⟩ : ∃ m, popularKind.fromConfig
      [("popularity", Value.str "n_interactions"),
       ("period", Value.dur (Duration.ofWeeks 2))] = .ok m := ⟨_, rfl⟩
  have h := flatten_unflatten_inverse popularKind _ m true (by decide) (by decide) hm
  exact ⟨m, hm, h.1, h.2.1⟩

end RecTools
